import Mathlib

/-!
# mhttpd: codec utilities, path sanitisation and the connection worker

A shallow embedding of `src/src/mhttpd.cpp`.

* A `std::string` is a `List Nat`, one entry per byte (the byte's value 0..255).
* `char` comparisons against ASCII literals are comparisons of the byte value:
  a byte of value 128 or more fails every ASCII range test whether `char` is
  signed or not, so only `static_cast<unsigned>(c)` depends on the signedness;
  that one is a parameter (`schar`).
* A loop that walks a buffer with a cursor `pos` is a function of the unread
  rest `buffer[pos..length)`.
-/

namespace mhttpd

/-- The bytes of an ASCII literal. -/
def bytes (s : String) : List Nat := s.toList.map Char.toNat

/-! ## urlencode / urldecode (mhttpd.cpp 492-554) -/

/-- Value of `static_cast<unsigned>(c)` for the `char` holding byte `b`: when
`char` is signed (`schar`), a byte of 128 or more is a negative `char` and is
converted modulo 2^32. -/
def charToUnsigned (schar : Bool) (b : Nat) : Nat :=
  ((if schar && decide (128 ≤ b) then (b : Int) - 256 else (b : Int)) % (2 ^ 32 : Int)).toNat

/-- Text of `stream.width(2); stream << n` on a stream set up with
`fill('0')` and `std::hex`: lower-case hexadecimal, padded on the left with
'0' to at least two characters. -/
def hexWidth2 (n : Nat) : List Nat :=
  let digits := (Nat.toDigits 16 n).map Char.toNat
  List.replicate (2 - digits.length) 48 ++ digits

/-- What one iteration of the loop of `urlencode` appends for the byte `c`. -/
def urlencodeChar (schar : Bool) (c : Nat) : List Nat :=
  if 97 ≤ c ∧ c ≤ 122 then [c]               -- 'a' .. 'z'
  else if 65 ≤ c ∧ c ≤ 90 then [c]           -- 'A' .. 'Z'
  else if 48 ≤ c ∧ c ≤ 57 then [c]           -- '0' .. '9'
  else if c = 45 ∨ c = 95 ∨ c = 46 then [c]  -- '-', '_', '.'
  else if c = 32 then [43]                   -- ' ' becomes '+'
  else hexWidth2 (charToUnsigned schar c)

/-- Model of `urlencode`: the loop over `s`, appending to the stream. -/
def urlencode (schar : Bool) : List Nat → List Nat
  | [] => []
  | c :: s => urlencodeChar schar c ++ urlencode schar s

/-- Model of `hexvalue`: the digit's value, or -1. -/
def hexvalue (c : Nat) : Int :=
  if 48 ≤ c ∧ c ≤ 57 then (c : Int) - 48            -- '0' .. '9'
  else if 65 ≤ c ∧ c ≤ 70 then (c : Int) - 65 + 10  -- 'A' .. 'F'
  else if 97 ≤ c ∧ c ≤ 102 then (c : Int) - 97 + 10 -- 'a' .. 'f'
  else -1

/-- Value of `static_cast<char>(hi << 4 | lo)` as a byte. -/
def escapeByte (hi lo : Int) : Nat :=
  ((hi.toNat <<< 4) ||| lo.toNat) % 256

/-- Model of `urldecode`. The argument is the part of `s` from index `i` on;
the test `i + 2 < s.length()` says that two more characters follow `s[i]`, and
`i += 2` continues behind them. -/
def urldecode : List Nat → List Nat
  | [] => []
  | c :: rest =>
    let next := urldecode rest               -- the loop continued at i + 1
    if c = 43 then 32 :: next                -- '+'
    else if c = 37 then                      -- '%'
      match rest with
      | x :: y :: rest2 =>
        if hexvalue x < 0 ∨ hexvalue y < 0 then 37 :: next
        else escapeByte (hexvalue x) (hexvalue y) :: urldecode rest2
      | _ => c :: next
    else c :: next

/-! ## sanitizepath (mhttpd.cpp 581-616) -/

/-- One call `std::getline(ss, string, 47)` on a stream whose unread content
is `ss`: `none` when nothing can be extracted (end of stream, the call fails),
otherwise the characters before the first '/' and the content left behind it
(the delimiter is extracted and dropped). -/
def getline (ss : List Nat) : Option (List Nat × List Nat) :=
  match ss with
  | [] => none
  | _ :: _ => some (ss.takeWhile (fun c => c ≠ 47), (ss.dropWhile (fun c => c ≠ 47)).drop 1)

/-- The loop `while (std::getline(ss, string, 47)) vector.push_back(string)`,
run for at most `fuel` calls of `getline`. -/
def tokenizeLoop : Nat → List Nat → List (List Nat)
  | 0, _ => []
  | fuel + 1, ss =>
    match getline ss with
    | none => []
    | some (string, ss2) => string :: tokenizeLoop fuel ss2

/-- The vector of tokens of `path`. Every successful `getline` consumes at
least one character, so `path.length + 1` calls are enough
(`tokenizeLoop_fuel`). -/
def tokenize (path : List Nat) : List (List Nat) :=
  tokenizeLoop (path.length + 1) path

/-- One iteration of the reassembling loop on the token `it`; the state is
`(ignore, string)`. -/
def reassembleStep (st : Bool × List Nat) (it : List Nat) : Bool × List Nat :=
  if st.1 then (false, st.2)
  else if it = [] then st
  else if it = [46] then st                      -- "."
  else if it = [46, 46] then (true, st.2)        -- ".."
  else if st.2 = [] then (false, it)
  else (false, it ++ 47 :: st.2)

/-- The reassembling loop: the tokens are visited from the last to the first
(`rbegin` to `rend`), starting with `ignore = false` and the empty string. -/
def reassemble (vector : List (List Nat)) : List Nat :=
  (vector.reverse.foldl reassembleStep (false, [])).2

/-- Model of `sanitizepath`. For the empty path, `path[path.size() - 1]` is
an access outside the string (index 2^64 - 1): undefined behaviour, `none`. -/
def sanitizepath (path : List Nat) : Option (List Nat) :=
  let string := reassemble (tokenize path)
  match path.getLast? with
  | none => none
  | some last => some (47 :: (if last = 47 then string ++ [47] else string))

/-! ## htmlspecialchars (mhttpd.cpp 556-579) -/

/-- Model of `htmlspecialchars`. -/
def htmlspecialchars : List Nat → List Nat
  | [] => []
  | c :: s =>
    (if c = 38 then bytes "&amp;"        -- '&'
     else if c = 60 then bytes "&lt;"    -- '<'
     else if c = 62 then bytes "&gt;"    -- '>'
     else [c]) ++ htmlspecialchars s

/-! ## Request and Response (mhttpd.h, mhttpd.cpp 42-178) -/

/-- Model of `std::string::operator<`: lexicographic on the byte values. -/
def strLess : List Nat → List Nat → Bool
  | [], [] => false
  | [], _ :: _ => true
  | _ :: _, [] => false
  | a :: as, b :: bs => if a < b then true else if b < a then false else strLess as bs

/-- A `std::map<std::string, std::string>`: its entries in iteration order
(ascending keys, one entry per key). -/
abbrev FieldMap := List (List Nat × List Nat)

/-- Model of `m[key] = value` on a `std::map`. -/
def mapSet : FieldMap → List Nat → List Nat → FieldMap
  | [], key, value => [(key, value)]
  | (k, v) :: m, key, value =>
    if key = k then (k, value) :: m
    else if strLess key k then (key, value) :: (k, v) :: m
    else (k, v) :: mapSet m key value

/-- Model of `m.find(key)` on a `std::map`: the mapped value, if any. -/
def mapFind (m : FieldMap) (key : List Nat) : Option (List Nat) :=
  (m.find? (fun e => e.1 = key)).map Prod.snd

/-- Model of `m.insert(pair(key, value))` on a `std::multimap`: the entries
are kept in ascending key order and a new entry goes behind the entries with
an equal key. -/
def multimapInsert : List (List Nat × List Nat) → List Nat → List Nat → List (List Nat × List Nat)
  | [], key, value => [(key, value)]
  | (k, v) :: m, key, value =>
    if strLess key k then (key, value) :: (k, v) :: m
    else (k, v) :: multimapInsert m key value

/-- The public members of `Request` that the parser fills (the client
address, copied from the socket address, is left out). -/
structure Request where
  type : List Nat
  version : List Nat
  path : List Nat
  fields : FieldMap
  parameters : List (List Nat × List Nat)
deriving DecidableEq, Repr

/-- A `Response` together with its `Implementation` (`headerSent`,
`sendBuffer`) and the bytes it has handed to `send` on its socket so far
(`sent`; every `send` is taken to accept what it is given). -/
structure Response where
  version : List Nat
  statusCode : Nat
  statusMessage : List Nat
  contentType : List Nat
  fields : FieldMap
  headerSent : Bool
  sendBuffer : List Nat
  sent : List Nat
deriving DecidableEq, Repr

/-- Model of the constructor `Response::Response(sock)`. -/
def Response.create : Response where
  version := bytes "HTTP/1.1"
  statusCode := 501
  statusMessage := bytes "Not Implemented"
  contentType := bytes "application/octet-stream"
  fields := []
  headerSent := false
  sendBuffer := []
  sent := []

/-- Model of `Implementation::writeBuffer`: the loop sends all of `data`. -/
def Implementation.writeBuffer (r : Response) (data : List Nat) : Response :=
  { r with sent := r.sent ++ data }

/-- Model of `Implementation::write`, with `fuel` bounding the depth of its
recursive call. -/
def Implementation.writeLoop (BUFSIZ : Nat) : Nat → Response → List Nat → Response
  | 0, r, _ => r
  | fuel + 1, r, data =>
    if r.sendBuffer = [] then
      if data.length ≥ BUFSIZ then
        Implementation.writeBuffer r data
      else
        { r with sendBuffer := r.sendBuffer ++ data }
    else if r.sendBuffer.length + data.length < BUFSIZ then
      { r with sendBuffer := r.sendBuffer ++ data }
    else
      Implementation.writeLoop BUFSIZ fuel
        { Implementation.writeBuffer r r.sendBuffer with sendBuffer := [] } data

/-- Model of `Implementation::write`: the recursive call is made with an empty
`sendBuffer` and returns without recursing, so depth two is enough. -/
def Implementation.write (BUFSIZ : Nat) (r : Response) (data : List Nat) : Response :=
  Implementation.writeLoop BUFSIZ 2 r data

/-- Decimal text of a natural number. -/
def natText (n : Nat) : List Nat := (Nat.toDigits 10 n).map Char.toNat

/-- Text that `std::stringstream` produces for an `int`. -/
def intText (i : Int) : List Nat :=
  if i < 0 then 45 :: natText (-i).toNat else natText i.toNat

/-- Value of an `unsigned` converted to `int` (32 bits, two's complement). -/
def unsignedToInt (n : Nat) : Int :=
  if n % 2 ^ 32 < 2 ^ 31 then ((n % 2 ^ 32 : Nat) : Int) else ((n % 2 ^ 32 : Nat) : Int) - 2 ^ 32

/-- Model of `Implementation::sendHeader`. `headerSent` is set first, so each
`response << x` in its body passes `Response::write` straight on to
`Implementation::write`. -/
def Implementation.sendHeader (BUFSIZ : Nat) (response : Response) : Response :=
  let w := Implementation.write BUFSIZ
  let r := { response with headerSent := true }
  let r := w r r.version
  let r := w r (bytes " ")
  let r := w r (intText (unsignedToInt r.statusCode))
  let r := w r (bytes " ")
  let r := w r r.statusMessage
  let r := w r (bytes "\r\n")
  let r := w r (bytes "Content-Type: ")
  let r := w r r.contentType
  let r := w r (bytes "\r\n")
  let r := w r (bytes "Connection: Close\r\n")
  let r := r.fields.foldl
    (fun r it => w (w (w (w r it.1) (bytes ": ")) it.2) (bytes "\r\n")) r
  w r (bytes "\r\n")

/-- Model of `Response::write` (and of `operator<<` for a string). -/
def Response.write (BUFSIZ : Nat) (r : Response) (data : List Nat) : Response :=
  let r := if r.headerSent then r else Implementation.sendHeader BUFSIZ r
  Implementation.write BUFSIZ r data

/-- Model of `Response::put`. -/
def Response.put (BUFSIZ : Nat) (r : Response) (c : Nat) : Response :=
  Response.write BUFSIZ r [c]

/-- Model of `operator<<(Response&, const int&)`. -/
def Response.putInt (BUFSIZ : Nat) (r : Response) (i : Int) : Response :=
  Response.write BUFSIZ r (intText i)

/-- Model of `Response::~Response` followed by `Implementation::~Implementation`:
the header is sent if it has not been, then a non-empty `sendBuffer` goes out. -/
def Response.destroy (BUFSIZ : Nat) (r : Response) : Response :=
  let r := if r.headerSent then r else Implementation.sendHeader BUFSIZ r
  if r.sendBuffer = [] then r else Implementation.writeBuffer r r.sendBuffer

/-! ## server_worker (mhttpd.cpp 284-419)

The model starts behind the second `fork` and the `setsockopt` call. The
socket delivers the bytes of `incoming` one `recv` at a time; behind them
`recv` returns 0 (peer closed) or a negative value (timeout, error), and the
worker returns in both cases. -/

/-- The test `length >= 4` and `buffer[length - 4 .. length - 1]` is CR LF CR LF
that ends the header read loop. -/
def headerComplete (buffer : List Nat) : Bool :=
  decide (4 ≤ buffer.length) && decide (buffer.drop (buffer.length - 4) = [13, 10, 13, 10])

/-- The header read loop. `buffer` holds the `length` bytes read so far;
the result is the buffer content when the loop ends at the terminator and
`none` when the worker returns from inside the loop. -/
def readLoop (BUFSIZ : Nat) : List Nat → List Nat → Option (List Nat)
  | buffer, incoming =>
    if BUFSIZ = buffer.length then none     -- zero bytes requested: recv returns 0
    else
      match incoming with
      | [] => none                          -- read == 0 or read < 0
      | b :: incoming2 =>
        let buffer2 := buffer ++ [b]
        if buffer2.length ≥ BUFSIZ then none  -- maximum request size reached
        else if headerComplete buffer2 then some buffer2
        else readLoop BUFSIZ buffer2 incoming2

/-- The header read loop started on the empty buffer. -/
def readHeader (BUFSIZ : Nat) (incoming : List Nat) : Option (List Nat) :=
  readLoop BUFSIZ [] incoming

/-- Lines 312-349 on the buffer content: request type, path and version, and
the unread rest behind the first CR LF; `none` where the worker returns. -/
def parseRequestLine (buffer : List Nat) :
    Option (List Nat × List Nat × List Nat × List Nat) :=
  let type := buffer.takeWhile (fun c => c ≠ 32)
  match buffer.dropWhile (fun c => c ≠ 32) with
  | [] => none
  | c1 :: rest1 =>
    if c1 ≠ 32 then none else
    let path := rest1.takeWhile (fun c => c ≠ 32)
    match rest1.dropWhile (fun c => c ≠ 32) with
    | [] => none
    | c2 :: rest2 =>
      if c2 ≠ 32 then none else
      let version := rest2.takeWhile (fun c => c ≠ 13)
      match rest2.dropWhile (fun c => c ≠ 13) with
      | c3 :: c4 :: rest3 =>
        if c3 = 13 ∧ c4 = 10 then some (type, path, version, rest3) else none
      | _ => none

/-- One iteration of the header field loop (lines 353-385) on the unread
rest: key, value and the rest behind the line, `none` where the worker
returns. -/
def parseHeaderLine (rest : List Nat) : Option (List Nat × List Nat × List Nat) :=
  let key := rest.takeWhile (fun c => c ≠ 58)
  match rest.dropWhile (fun c => c ≠ 58) with
  | [] => none
  | c1 :: rest1 =>
    if c1 ≠ 58 then none else
    let rest2 := rest1.dropWhile (fun c => c = 32 ∨ c = 9)
    let value := rest2.takeWhile (fun c => c ≠ 13)
    match rest2.dropWhile (fun c => c ≠ 13) with
    | c3 :: c4 :: rest3 =>
      if c3 = 13 ∧ c4 = 10 then some (key, value, rest3) else none
    | _ => none

/-- The header field loop `while (pos < length - 2)` on the unread rest (`pos <
length - 2` says that more than two bytes are unread), for at most `fuel`
iterations. -/
def parseHeaderLoop : Nat → List Nat → FieldMap → Option FieldMap
  | fuel, rest, fields =>
    if rest.length ≤ 2 then some fields
    else
      match fuel with
      | 0 => none
      | fuel2 + 1 =>
        match parseHeaderLine rest with
        | none => none
        | some (key, value, rest3) => parseHeaderLoop fuel2 rest3 (mapSet fields key value)

/-- The header field loop; an iteration that does not return consumes at least
three bytes, so `rest.length` iterations are enough. -/
def parseHeaderFields (rest : List Nat) : Option FieldMap :=
  parseHeaderLoop rest.length rest []

/-- The loop `while (!query.empty())` of lines 393-408, for at most `fuel`
iterations. -/
def parseQueryLoop : Nat → List Nat → List (List Nat × List Nat) → List (List Nat × List Nat)
  | 0, _, parameters => parameters
  | fuel + 1, query, parameters =>
    if query = [] then parameters
    else
      let token := query.takeWhile (fun c => c ≠ 38)
      let query2 := (query.dropWhile (fun c => c ≠ 38)).drop 1
      let key := token.takeWhile (fun c => c ≠ 61)
      let val := (token.dropWhile (fun c => c ≠ 61)).drop 1
      parseQueryLoop fuel query2 (multimapInsert parameters (urldecode key) (urldecode val))

/-- Lines 388-411: the parameters of the raw request path and the stored
path. Every iteration of the query loop removes at least one character. -/
def parseQuery (rawpath : List Nat) : List Nat × List (List Nat × List Nat) :=
  let parameters :=
    match rawpath.dropWhile (fun c => c ≠ 63) with
    | [] => []
    | _ :: query => parseQueryLoop query.length query []
  (urldecode (rawpath.takeWhile (fun c => c ≠ 63)), parameters)

/-- Lines 308-411: the request parsed from the buffer content, `none` where
the worker returns before it reaches the handler. -/
def parseRequest (buffer : List Nat) : Option Request :=
  match parseRequestLine buffer with
  | none => none
  | some (type, rawpath, version, rest) =>
    match parseHeaderFields rest with
    | none => none
    | some fields =>
      some { type := type, version := version, path := (parseQuery rawpath).1,
             fields := fields, parameters := (parseQuery rawpath).2 }

/-- What a handler does with the `Response` it is given: an assignment to a
public member or a call of `write` (`put` and `operator<<` are calls of
`write`). -/
inductive Action where
  | setVersion (v : List Nat)
  | setStatusCode (n : Nat)
  | setStatusMessage (m : List Nat)
  | setContentType (t : List Nat)
  | setField (key value : List Nat)
  | write (data : List Nat)
deriving DecidableEq, Repr

/-- The effect of one handler action on the response. -/
def Action.run (BUFSIZ : Nat) (r : Response) : Action → Response
  | .setVersion v => { r with version := v }
  | .setStatusCode n => { r with statusCode := n }
  | .setStatusMessage m => { r with statusMessage := m }
  | .setContentType t => { r with contentType := t }
  | .setField key value => { r with fields := mapSet r.fields key value }
  | .write data => Response.write BUFSIZ r data

/-- A handler (`handler_t`): the actions it performs for a request. -/
abbrev Handler := Request → List Action

/-- What a run of the worker has done when it returns: the requests the
handler was called with, in order, and the bytes sent on the socket. -/
structure Outcome where
  handled : List Request
  sent : List Nat
deriving DecidableEq, Repr

/-- Model of `server_worker` from line 284 on. `Request` and `Response` are
constructed when the header read loop has ended (lines 309-310); at every
later `return` and at the end of the function the `Response` is destroyed. -/
def server_worker (BUFSIZ : Nat) (handler : Handler) (incoming : List Nat) : Outcome :=
  match readHeader BUFSIZ incoming with
  | none => { handled := [], sent := [] }
  | some buffer =>
    let response := Response.create
    match parseRequestLine buffer with
    | none => { handled := [], sent := (Response.destroy BUFSIZ response).sent }
    | some (type, rawpath, version, rest) =>
      match parseHeaderFields rest with
      | none => { handled := [], sent := (Response.destroy BUFSIZ response).sent }
      | some fields =>
        let request : Request :=
          { type := type, version := version, path := (parseQuery rawpath).1,
            fields := fields, parameters := (parseQuery rawpath).2 }
        let response := (handler request).foldl (Action.run BUFSIZ) response
        { handled := [request], sent := (Response.destroy BUFSIZ response).sent }

/-! ## Vocabulary of the statements -/

/-- A hexadecimal digit, upper or lower case. -/
def isHexDigit (c : Nat) : Prop :=
  (48 ≤ c ∧ c ≤ 57) ∨ (65 ≤ c ∧ c ≤ 70) ∨ (97 ≤ c ∧ c ≤ 102)

instance : DecidablePred isHexDigit := fun c => by
  unfold isHexDigit; infer_instance

/-- The string `s` with every '+' replaced by a space. -/
def plusToSpace (s : List Nat) : List Nat :=
  s.map (fun c => if c = 43 then 32 else c)

/-- No '%' of `s` is immediately followed by two hexadecimal digits (a '%' with
fewer than two characters behind it is not). -/
def NoValidEscape (s : List Nat) : Prop :=
  ∀ i < s.length, s.getD i 0 = 37 →
    ¬ (i + 2 < s.length ∧ isHexDigit (s.getD (i + 1) 0) ∧ isHexDigit (s.getD (i + 2) 0))

instance : DecidablePred NoValidEscape := fun s => by
  unfold NoValidEscape; infer_instance

/-- An ordinary path segment: not empty, without '/', and neither "." nor
"..". -/
def OrdinarySegment (t : List Nat) : Prop :=
  t ≠ [] ∧ 47 ∉ t ∧ t ≠ [46] ∧ t ≠ [46, 46]

instance : DecidablePred OrdinarySegment := fun t => by
  unfold OrdinarySegment; infer_instance

/-- The '/'-separated segments of a string. -/
def segments (s : List Nat) : List (List Nat) := s.splitOn 47

/-- No segment of `s` is "." or "..". -/
def NoDotSegment (s : List Nat) : Prop :=
  ∀ seg ∈ segments s, seg ≠ [46, 46] ∧ seg ≠ [46]

/-- The header line "key: value" with its CR LF. -/
def headerLine (kv : List Nat × List Nat) : List Nat :=
  kv.1 ++ [58, 32] ++ kv.2 ++ [13, 10]

/-- The header lines of a list of (key, value) pairs, in order. -/
def headerLines : List (List Nat × List Nat) → List Nat
  | [] => []
  | kv :: hdrs => headerLine kv ++ headerLines hdrs

/-- The header block "m t v" CR LF, the header lines, CR LF. -/
def requestBlock (m t v : List Nat) (hdrs : List (List Nat × List Nat)) : List Nat :=
  m ++ [32] ++ t ++ [32] ++ v ++ [13, 10] ++ headerLines hdrs ++ [13, 10]

/-- The value of the last pair of `hdrs` with the key `key`. -/
def lastValue (hdrs : List (List Nat × List Nat)) (key : List Nat) : Option (List Nat) :=
  (hdrs.reverse.find? (fun kv => kv.1 = key)).map Prod.snd

/-- The bytes a response has produced so far, sent or still buffered. -/
def Response.stream (r : Response) : List Nat := r.sent ++ r.sendBuffer

/-- The lines "key: value" CR LF of a field map, in its iteration order. -/
def fieldLines : FieldMap → List Nat
  | [] => []
  | it :: m => it.1 ++ bytes ": " ++ it.2 ++ bytes "\r\n" ++ fieldLines m

/-- The text of the header of a response, in the order in which `sendHeader`
writes it. -/
def headerText (r : Response) : List Nat :=
  r.version ++ bytes " " ++ intText (unsignedToInt r.statusCode) ++ bytes " " ++
    r.statusMessage ++ bytes "\r\n" ++
    bytes "Content-Type: " ++ r.contentType ++ bytes "\r\n" ++
    bytes "Connection: Close\r\n" ++
    fieldLines r.fields ++ bytes "\r\n"

/-- What the description of `htmlspecialchars` gives for one byte: the entity
for '&', '<' and '>', the byte itself otherwise. -/
def htmlEntity (c : Nat) : List Nat :=
  if c = 38 then bytes "&amp;"
  else if c = 60 then bytes "&lt;"
  else if c = 62 then bytes "&gt;"
  else [c]

/-- The header block in the order of the description in the specification:
status line, "Connection: Close", "Content-Type", the fields, a blank line. -/
def headerTextAsClaimed (r : Response) : List Nat :=
  r.version ++ bytes " " ++ intText (unsignedToInt r.statusCode) ++ bytes " " ++
    r.statusMessage ++ bytes "\r\n" ++
    bytes "Connection: Close\r\n" ++
    bytes "Content-Type: " ++ r.contentType ++ bytes "\r\n" ++
    fieldLines r.fields ++ bytes "\r\n"

/-- The field map after the assignments `fields[key] = value` for the pairs
of `sets`, in order, on an empty map. -/
def fieldsAfter (sets : List (List Nat × List Nat)) : FieldMap :=
  sets.foldl (fun m kv => mapSet m kv.1 kv.2) []

/-- The text of a request target behind its first '?'. -/
def queryText (target : List Nat) : List Nat :=
  (target.dropWhile (fun c => c ≠ 63)).drop 1

/-- The decoded (key, value) of one piece of the query text: the piece is cut
at its first '=', and the value is empty when there is none. -/
def queryPair (token : List Nat) : List Nat × List Nat :=
  (urldecode (token.takeWhile (fun c => c ≠ 61)),
   urldecode ((token.dropWhile (fun c => c ≠ 61)).drop 1))

/-- The pieces of the query text between its '&' characters, without the
last piece when that one is empty (an empty text, or a text ending in '&'). -/
def queryPieces (q : List Nat) : List (List Nat) :=
  if (q.splitOn 38).getLast? = some [] then (q.splitOn 38).dropLast else q.splitOn 38

/-- The lines of a header block: the pieces between its CR LF pairs. -/
def crlfLines : List Nat → List (List Nat)
  | [] => [[]]
  | [c] => [[c]]
  | c :: d :: rest =>
    if c = 13 ∧ d = 10 then [] :: crlfLines rest
    else
      match crlfLines (d :: rest) with
      | [] => [[c]]
      | line :: more => (c :: line) :: more

/-- The words of the specification on a request that is abandoned by the
request line parse or the header field parse: the request line, the bytes in
front of the first CR LF, has fewer than two spaces ("if either delimiter is
missing, abandon"), or a line behind it and in front of the blank line has no
':' ("split at the first ':'; abandon if absent"). -/
def MalformedAsSpecified (block : List Nat) : Prop :=
  ((crlfLines block).headD []).count 32 < 2 ∨
    ∃ line ∈ (crlfLines block).tail.takeWhile (fun line => line ≠ []), 58 ∉ line

instance : DecidablePred MalformedAsSpecified := fun block => by
  unfold MalformedAsSpecified; infer_instance

end mhttpd

namespace mhttpd

/-! ## Lemmas on the codec -/

theorem hexvalue_of_isHexDigit {c : Nat} (h : isHexDigit c) :
    0 ≤ hexvalue c ∧ hexvalue c < 16 := by
  unfold isHexDigit at h
  unfold hexvalue
  split_ifs <;> omega

theorem hexvalue_of_not_isHexDigit {c : Nat} (h : ¬ isHexDigit c) : hexvalue c = -1 := by
  unfold isHexDigit at h
  unfold hexvalue
  split_ifs <;> omega

theorem hexvalue_neg_iff (c : Nat) : hexvalue c < 0 ↔ ¬ isHexDigit c := by
  constructor
  · intro h hc
    have := hexvalue_of_isHexDigit hc
    omega
  · intro h
    rw [hexvalue_of_not_isHexDigit h]
    decide

theorem urldecode_nil : urldecode [] = [] := rfl

theorem urldecode_cons (c : Nat) (rest : List Nat) :
    urldecode (c :: rest) =
      if c = 43 then 32 :: urldecode rest
      else if c = 37 then
        match rest with
        | x :: y :: rest2 =>
          if hexvalue x < 0 ∨ hexvalue y < 0 then 37 :: urldecode rest
          else escapeByte (hexvalue x) (hexvalue y) :: urldecode rest2
        | _ => c :: urldecode rest
      else c :: urldecode rest := by
  cases rest with
  | nil => rfl
  | cons x r =>
    cases r with
    | nil => rfl
    | cons y r2 => rfl

theorem urldecode_plain (c : Nat) (rest : List Nat) (h1 : c ≠ 43) (h2 : c ≠ 37) :
    urldecode (c :: rest) = c :: urldecode rest := by
  rw [urldecode_cons]
  simp [h1, h2]

theorem urldecode_plus (rest : List Nat) : urldecode (43 :: rest) = 32 :: urldecode rest := by
  rw [urldecode_cons]
  simp

theorem urldecode_percent_literal (rest : List Nat)
    (h : ∀ x y rest2, rest = x :: y :: rest2 → ¬ (isHexDigit x ∧ isHexDigit y)) :
    urldecode (37 :: rest) = 37 :: urldecode rest := by
  rw [urldecode_cons]
  cases rest with
  | nil => simp
  | cons x r =>
    cases r with
    | nil => simp
    | cons y rest2 =>
      have h3 : hexvalue x < 0 ∨ hexvalue y < 0 := by
        have := h x y rest2 rfl
        rw [hexvalue_neg_iff, hexvalue_neg_iff]
        tauto
      simp [h3]

theorem NoValidEscape_tail {c : Nat} {s : List Nat} (h : NoValidEscape (c :: s)) :
    NoValidEscape s := by
  intro i hi h37 hx
  refine h (i + 1) (by simpa using hi) (by simpa using h37) ⟨?_, ?_, ?_⟩
  · have := hx.1
    simp only [List.length_cons]
    omega
  · simpa using hx.2.1
  · simpa using hx.2.2

theorem urldecode_of_noValidEscape (s : List Nat) (h : NoValidEscape s) :
    urldecode s = plusToSpace s := by
  induction s with
  | nil => rfl
  | cons c s ih =>
    have ih2 := ih (NoValidEscape_tail h)
    by_cases h43 : c = 43
    · subst h43
      rw [urldecode_plus, ih2]
      simp [plusToSpace]
    · by_cases h37 : c = 37
      · subst h37
        rw [urldecode_percent_literal, ih2]
        · simp [plusToSpace]
        · intro x y rest2 hrest hxy
          subst hrest
          have := h 0 (by simp) (by simp)
          apply this
          simpa using hxy
      · rw [urldecode_plain c s h43 h37, ih2]
        simp [plusToSpace, h43]

/-! ## Lemmas on scanning a list up to a stop character -/

theorem takeWhile_append_stop (p : Nat → Bool) (a : List Nat) (b : Nat) (r : List Nat)
    (ha : ∀ c ∈ a, p c = true) (hb : p b = false) :
    (a ++ b :: r).takeWhile p = a := by
  induction a with
  | nil => simp [List.takeWhile, hb]
  | cons c a ih =>
    have hc := ha c (List.mem_cons_self _ _)
    simp [List.takeWhile, hc, ih (fun d hd => ha d (List.mem_cons_of_mem _ hd))]

theorem dropWhile_append_stop (p : Nat → Bool) (a : List Nat) (b : Nat) (r : List Nat)
    (ha : ∀ c ∈ a, p c = true) (hb : p b = false) :
    (a ++ b :: r).dropWhile p = b :: r := by
  induction a with
  | nil => simp [List.dropWhile, hb]
  | cons c a ih =>
    have hc := ha c (List.mem_cons_self _ _)
    simp [List.dropWhile, hc, ih (fun d hd => ha d (List.mem_cons_of_mem _ hd))]

theorem takeWhile_all (p : Nat → Bool) (a : List Nat) (ha : ∀ c ∈ a, p c = true) :
    a.takeWhile p = a := by
  induction a with
  | nil => rfl
  | cons c a ih =>
    have hc := ha c (List.mem_cons_self _ _)
    simp [List.takeWhile, hc, ih (fun d hd => ha d (List.mem_cons_of_mem _ hd))]

theorem dropWhile_all (p : Nat → Bool) (a : List Nat) (ha : ∀ c ∈ a, p c = true) :
    a.dropWhile p = [] := by
  induction a with
  | nil => rfl
  | cons c a ih =>
    have hc := ha c (List.mem_cons_self _ _)
    simp [List.dropWhile, hc, ih (fun d hd => ha d (List.mem_cons_of_mem _ hd))]

theorem length_dropWhile_drop_lt (p : Nat → Bool) (ss : List Nat) (h : ss ≠ []) :
    ((ss.dropWhile p).drop 1).length < ss.length := by
  have h1 : (ss.dropWhile p).length ≤ ss.length := (List.dropWhile_sublist p).length_le
  have h2 : 0 < ss.length := List.length_pos.mpr h
  rw [List.length_drop]
  omega

/-! ## Lemmas on the tokens of a path -/

theorem getline_cons (c : Nat) (ss : List Nat) :
    getline (c :: ss) = some ((c :: ss).takeWhile (fun c => c ≠ 47),
      ((c :: ss).dropWhile (fun c => c ≠ 47)).drop 1) := rfl

theorem tokenizeLoop_succ_cons (fuel c : Nat) (ss : List Nat) :
    tokenizeLoop (fuel + 1) (c :: ss) = (c :: ss).takeWhile (fun c => c ≠ 47) ::
      tokenizeLoop fuel (((c :: ss).dropWhile (fun c => c ≠ 47)).drop 1) := rfl

theorem tokenizeLoop_fuel (fuel1 fuel2 : Nat) (ss : List Nat)
    (h1 : ss.length < fuel1) (h2 : ss.length < fuel2) :
    tokenizeLoop fuel1 ss = tokenizeLoop fuel2 ss := by
  induction fuel1 generalizing fuel2 ss with
  | zero => omega
  | succ n ih =>
    cases fuel2 with
    | zero => omega
    | succ k =>
      cases ss with
      | nil => rfl
      | cons c ss =>
        have hlt := length_dropWhile_drop_lt (fun c => c ≠ 47) (c :: ss) (by simp)
        rw [tokenizeLoop_succ_cons, tokenizeLoop_succ_cons, ih k _ (by omega) (by omega)]

theorem tokenize_nil : tokenize [] = [] := rfl

theorem tokenize_cons (c : Nat) (ss : List Nat) :
    tokenize (c :: ss) = (c :: ss).takeWhile (fun c => c ≠ 47) ::
      tokenize (((c :: ss).dropWhile (fun c => c ≠ 47)).drop 1) := by
  have hlt := length_dropWhile_drop_lt (fun c => c ≠ 47) (c :: ss) (by simp)
  unfold tokenize
  rw [tokenizeLoop_succ_cons, tokenizeLoop_fuel _ _ _ hlt (Nat.lt_succ_self _)]

theorem tokenize_token_slash (t rest : List Nat) (ht : 47 ∉ t) :
    tokenize (t ++ 47 :: rest) = t :: tokenize rest := by
  have hp : ∀ c ∈ t, (fun c => decide (c ≠ 47)) c = true := by
    intro c hc
    have : c ≠ 47 := fun h => ht (h ▸ hc)
    simpa using this
  have hb : (fun c => decide (c ≠ 47)) 47 = false := by simp
  have e1 := takeWhile_append_stop _ t 47 rest hp hb
  have e2 := dropWhile_append_stop _ t 47 rest hp hb
  cases t with
  | nil =>
    rw [List.nil_append, tokenize_cons]
    simp
  | cons c t =>
    rw [List.cons_append, tokenize_cons, ← List.cons_append, e1, e2]
    simp

theorem tokenize_single (t : List Nat) (ht : 47 ∉ t) (hne : t ≠ []) : tokenize t = [t] := by
  have hp : ∀ c ∈ t, (fun c => decide (c ≠ 47)) c = true := by
    intro c hc
    have : c ≠ 47 := fun h => ht (h ▸ hc)
    simpa using this
  cases t with
  | nil => exact absurd rfl hne
  | cons c t =>
    rw [tokenize_cons, takeWhile_all _ _ hp, dropWhile_all _ _ hp]
    simp [tokenize_nil]

theorem tokenizeLoop_no_slash (fuel : Nat) (ss : List Nat) :
    ∀ t ∈ tokenizeLoop fuel ss, 47 ∉ t := by
  induction fuel generalizing ss with
  | zero => intro t ht; simp [tokenizeLoop] at ht
  | succ n ih =>
    cases ss with
    | nil => intro t ht; simp [tokenizeLoop, getline] at ht
    | cons c ss =>
      intro t ht
      rw [tokenizeLoop_succ_cons, List.mem_cons] at ht
      rcases ht with ht | ht
      · subst ht
        intro hmem
        have := List.mem_takeWhile_imp hmem
        simp at this
      · exact ih _ t ht

theorem tokenize_no_slash (path : List Nat) : ∀ t ∈ tokenize path, 47 ∉ t :=
  tokenizeLoop_no_slash _ _

/-! ## Lemmas on the segments of a string -/

theorem splitOnP_append_sep (p : Nat → Bool) (l : List Nat) (sep : Nat) (r : List Nat)
    (hsep : p sep = true) :
    (l ++ sep :: r).splitOnP p = l.splitOnP p ++ r.splitOnP p := by
  induction l with
  | nil => simp [List.splitOnP_cons, hsep]
  | cons c l ih =>
    rw [List.cons_append, List.splitOnP_cons, List.splitOnP_cons, ih]
    by_cases hc : p c = true
    · simp [hc]
    · simp only [hc, if_false]
      cases hl : l.splitOnP p with
      | nil => exact absurd hl (List.splitOnP_ne_nil _ _)
      | cons a as => simp [List.modifyHead]

theorem segments_append_slash (l r : List Nat) :
    segments (l ++ 47 :: r) = segments l ++ segments r := by
  unfold segments List.splitOn
  exact splitOnP_append_sep _ l 47 r (by simp)

theorem segments_nil : segments [] = [[]] := by
  simp [segments, List.splitOn]

theorem segments_no_slash (t : List Nat) (ht : 47 ∉ t) : segments t = [t] := by
  unfold segments List.splitOn
  apply List.splitOnP_eq_single
  intro c hc h
  have : c = 47 := by simpa using h
  exact ht (this ▸ hc)

/-! ## Lemmas on the reassembling loop -/

theorem noDotSegment_nil : NoDotSegment [] := by
  intro seg hseg
  rw [segments_nil] at hseg
  simp at hseg
  subst hseg
  simp

theorem reassembleStep_noDot (st : Bool × List Nat) (it : List Nat) (hit : 47 ∉ it)
    (h : NoDotSegment st.2) : NoDotSegment (reassembleStep st it).2 := by
  unfold reassembleStep
  split_ifs with h1 h2 h3 h4 h5
  · exact h
  · exact h
  · exact h
  · exact h
  · intro seg hseg
    rw [segments_no_slash it hit] at hseg
    simp at hseg
    subst hseg
    exact ⟨h4, h3⟩
  · intro seg hseg
    rw [segments_append_slash, segments_no_slash it hit] at hseg
    simp at hseg
    rcases hseg with hseg | hseg
    · subst hseg
      exact ⟨h4, h3⟩
    · exact h seg hseg

theorem foldl_reassembleStep_noDot (toks : List (List Nat)) (st : Bool × List Nat)
    (htoks : ∀ t ∈ toks, 47 ∉ t) (h : NoDotSegment st.2) :
    NoDotSegment (toks.foldl reassembleStep st).2 := by
  induction toks generalizing st with
  | nil => exact h
  | cons t toks ih =>
    rw [List.foldl_cons]
    apply ih
    · intro u hu
      exact htoks u (List.mem_cons_of_mem _ hu)
    · exact reassembleStep_noDot st t (htoks t (List.mem_cons_self _ _)) h

theorem reassemble_noDot (path : List Nat) : NoDotSegment (reassemble (tokenize path)) := by
  unfold reassemble
  apply foldl_reassembleStep_noDot
  · intro t ht
    exact tokenize_no_slash path t (List.mem_reverse.mp ht)
  · exact noDotSegment_nil

theorem sanitizepath_of_getLast (path : List Nat) (last : Nat)
    (h : path.getLast? = some last) :
    sanitizepath path = some (47 :: (if last = 47 then reassemble (tokenize path) ++ [47]
      else reassemble (tokenize path))) := by
  unfold sanitizepath
  simp only [h]

theorem getLast?_of_ne_nil (path : List Nat) (h : path ≠ []) :
    ∃ last, path.getLast? = some last := by
  cases hl : path.getLast? with
  | none => exact absurd (List.getLast?_eq_none_iff.mp hl) h
  | some last => exact ⟨last, rfl⟩

/-! ## Lemmas on a ".." behind an ordinary segment -/

theorem dropWhile_head_stop (p : Nat → Bool) (l : List Nat) (b : Nat) (r : List Nat)
    (h : l.dropWhile p = b :: r) : p b = false := by
  induction l with
  | nil => simp at h
  | cons c l ih =>
    by_cases hc : p c = true
    · rw [List.dropWhile_cons_of_pos hc] at h
      exact ih h
    · rw [List.dropWhile_cons_of_neg hc] at h
      have : c = b := (List.cons.inj h).1
      subst this
      simpa using hc

theorem tokenize_append_slash (p : List Nat) :
    ∃ A : List (List Nat), ∀ X, tokenize (p ++ 47 :: X) = A ++ tokenize X := by
  generalize hn : p.length = n
  induction n using Nat.strong_induction_on generalizing p with
  | _ n ih =>
    have hsplit := List.takeWhile_append_dropWhile (fun c => decide (c ≠ 47)) p
    have ht : 47 ∉ p.takeWhile (fun c => decide (c ≠ 47)) := by
      intro hmem
      have := List.mem_takeWhile_imp hmem
      simp at this
    cases hd : p.dropWhile (fun c => decide (c ≠ 47)) with
    | nil =>
      rw [hd, List.append_nil] at hsplit
      refine ⟨[p], fun X => ?_⟩
      rw [hsplit] at ht
      rw [tokenize_token_slash p X ht]
      rfl
    | cons b p2 =>
      have hb : b = 47 := by
        have := dropWhile_head_stop _ p b p2 hd
        simpa using this
      subst hb
      rw [hd] at hsplit
      have hlen : p2.length < n := by
        rw [← hn, ← hsplit]
        simp
        omega
      obtain ⟨A2, hA2⟩ := ih p2.length hlen p2 rfl
      refine ⟨p.takeWhile (fun c => decide (c ≠ 47)) :: A2, fun X => ?_⟩
      conv_lhs => rw [← hsplit]
      rw [List.append_assoc, List.cons_append, tokenize_token_slash _ _ ht, hA2 X]
      rfl

theorem intercalate_cons_cons (t u : List Nat) (ts : List (List Nat)) :
    [47].intercalate (t :: u :: ts) = t ++ 47 :: [47].intercalate (u :: ts) := by
  simp [List.intercalate, List.intersperse]

theorem tokenize_intercalate (qs : List (List Nat)) (h : ∀ t ∈ qs, OrdinarySegment t) :
    tokenize ([47].intercalate qs) = qs := by
  induction qs with
  | nil => rfl
  | cons t qs ih =>
    have ht := h t (List.mem_cons_self _ _)
    cases qs with
    | nil =>
      have : [47].intercalate [t] = t := by simp [List.intercalate, List.intersperse]
      rw [this, tokenize_single t ht.2.1 ht.1]
    | cons u qs =>
      rw [intercalate_cons_cons, tokenize_token_slash _ _ ht.2.1,
        ih (fun v hv => h v (List.mem_cons_of_mem _ hv))]

theorem reassembleStep_ordinary (s : List Nat) (t : List Nat) (ht : OrdinarySegment t) :
    (reassembleStep (false, s) t).1 = false := by
  unfold reassembleStep
  simp only [Bool.false_eq_true, if_false, if_neg ht.1, if_neg ht.2.2.1, if_neg ht.2.2.2]
  split_ifs <;> rfl

theorem foldl_reassembleStep_ordinary (toks : List (List Nat)) (s : List Nat)
    (h : ∀ t ∈ toks, OrdinarySegment t) :
    ∃ s2, toks.foldl reassembleStep (false, s) = (false, s2) := by
  induction toks generalizing s with
  | nil => exact ⟨s, rfl⟩
  | cons t toks ih =>
    rw [List.foldl_cons]
    have h1 := reassembleStep_ordinary s t (h t (List.mem_cons_self _ _))
    have h2 : reassembleStep (false, s) t = (false, (reassembleStep (false, s) t).2) :=
      Prod.ext h1 rfl
    rw [h2]
    exact ih _ (fun u hu => h u (List.mem_cons_of_mem _ hu))

theorem reassemble_cancel (A qs : List (List Nat)) (s : List Nat)
    (hq : ∀ t ∈ qs, OrdinarySegment t) :
    reassemble (A ++ (s :: [46, 46] :: qs)) = reassemble (A ++ qs) := by
  unfold reassemble
  obtain ⟨s2, hs2⟩ := foldl_reassembleStep_ordinary qs.reverse []
    (fun t ht => hq t (List.mem_reverse.mp ht))
  have e1 : (A ++ (s :: [46, 46] :: qs)).reverse = qs.reverse ++ ([46, 46] :: s :: A.reverse) := by
    simp
  rw [e1, List.reverse_append, List.foldl_append, List.foldl_append, hs2,
    List.foldl_cons, List.foldl_cons]
  have e2 : reassembleStep (reassembleStep (false, s2) [46, 46]) s = (false, s2) := by
    simp [reassembleStep]
  rw [e2]

theorem getLast?_append_cons (l : List Nat) (a : Nat) (q : List Nat) :
    (l ++ a :: q).getLast? = (a :: q).getLast? := by
  induction l with
  | nil => rfl
  | cons c l ih =>
    cases l with
    | nil => exact List.getLast?_cons_cons
    | cons d l =>
      rw [List.cons_append, List.cons_append, List.getLast?_cons_cons, ← List.cons_append, ih]

theorem getLast?_append_slash (p r1 r2 q : List Nat) :
    (p ++ 47 :: (r1 ++ 47 :: q)).getLast? = (r2 ++ 47 :: q).getLast? := by
  have e : p ++ 47 :: (r1 ++ 47 :: q) = (p ++ 47 :: r1) ++ 47 :: q := by simp
  rw [e, getLast?_append_cons, getLast?_append_cons]

/-! ## Lemmas on the request parser -/

theorem parseRequestLine_block (m t v rest : List Nat)
    (hm : ∀ c ∈ m, c ≠ 32) (ht : ∀ c ∈ t, c ≠ 32) (hv : ∀ c ∈ v, c ≠ 13) :
    parseRequestLine (m ++ [32] ++ t ++ [32] ++ v ++ [13, 10] ++ rest) =
      some (m, t, v, rest) := by
  have e : m ++ [32] ++ t ++ [32] ++ v ++ [13, 10] ++ rest =
      m ++ 32 :: (t ++ 32 :: (v ++ 13 :: 10 :: rest)) := by simp
  have pm : ∀ c ∈ m, (fun c => decide (c ≠ 32)) c = true := by
    intro c hc; simpa using hm c hc
  have pt : ∀ c ∈ t, (fun c => decide (c ≠ 32)) c = true := by
    intro c hc; simpa using ht c hc
  have pv : ∀ c ∈ v, (fun c => decide (c ≠ 13)) c = true := by
    intro c hc; simpa using hv c hc
  rw [e]
  unfold parseRequestLine
  rw [takeWhile_append_stop _ m 32 _ pm (by simp), dropWhile_append_stop _ m 32 _ pm (by simp)]
  simp only [ne_eq, not_true_eq_false, if_false]
  rw [takeWhile_append_stop _ t 32 _ pt (by simp), dropWhile_append_stop _ t 32 _ pt (by simp)]
  simp only [ne_eq, not_true_eq_false, if_false]
  rw [takeWhile_append_stop _ v 13 _ pv (by simp), dropWhile_append_stop _ v 13 _ pv (by simp)]
  simp

theorem parseHeaderLine_line (key value more : List Nat)
    (hk : ∀ c ∈ key, c ≠ 58) (hv : ∀ c ∈ value, c ≠ 13)
    (h32 : value.head? ≠ some 32) (h9 : value.head? ≠ some 9) :
    parseHeaderLine (headerLine (key, value) ++ more) = some (key, value, more) := by
  have e : headerLine (key, value) ++ more = key ++ 58 :: 32 :: (value ++ 13 :: 10 :: more) := by
    simp [headerLine]
  have pk : ∀ c ∈ key, (fun c => decide (c ≠ 58)) c = true := by
    intro c hc; simpa using hk c hc
  have pv : ∀ c ∈ value, (fun c => decide (c ≠ 13)) c = true := by
    intro c hc; simpa using hv c hc
  have hws : (32 :: (value ++ 13 :: 10 :: more)).dropWhile (fun c => decide (c = 32 ∨ c = 9)) =
      value ++ 13 :: 10 :: more := by
    cases value with
    | nil => simp [List.dropWhile]
    | cons c value =>
      have c32 : c ≠ 32 := by simpa using h32
      have c9 : c ≠ 9 := by simpa using h9
      simp [List.dropWhile, c32, c9]
  rw [e]
  unfold parseHeaderLine
  rw [takeWhile_append_stop _ key 58 _ pk (by simp), dropWhile_append_stop _ key 58 _ pk (by simp)]
  simp only [ne_eq, not_true_eq_false, if_false]
  rw [hws, takeWhile_append_stop _ value 13 _ pv (by simp),
    dropWhile_append_stop _ value 13 _ pv (by simp)]
  simp

theorem headerLines_length (hdrs : List (List Nat × List Nat)) :
    hdrs.length ≤ (headerLines hdrs).length := by
  induction hdrs with
  | nil => simp [headerLines]
  | cons kv hdrs ih =>
    simp only [headerLines, headerLine, List.length_append, List.length_cons, List.length_nil]
    omega

theorem parseHeaderLoop_lines (hdrs : List (List Nat × List Nat)) (fuel : Nat) (fields : FieldMap)
    (hfuel : hdrs.length ≤ fuel)
    (hk : ∀ kv ∈ hdrs, ∀ c ∈ kv.1, c ≠ 58)
    (hv : ∀ kv ∈ hdrs, (∀ c ∈ kv.2, c ≠ 13) ∧ kv.2.head? ≠ some 32 ∧ kv.2.head? ≠ some 9) :
    parseHeaderLoop fuel (headerLines hdrs ++ [13, 10]) fields =
      some (hdrs.foldl (fun f kv => mapSet f kv.1 kv.2) fields) := by
  induction hdrs generalizing fuel fields with
  | nil =>
    unfold parseHeaderLoop
    simp [headerLines]
  | cons kv hdrs ih =>
    obtain ⟨key, value⟩ := kv
    have hk1 := hk (key, value) (List.mem_cons_self _ _)
    have hv1 := hv (key, value) (List.mem_cons_self _ _)
    cases fuel with
    | zero => simp at hfuel
    | succ fuel =>
      have hlen : ¬ (headerLines ((key, value) :: hdrs) ++ [13, 10]).length ≤ 2 := by
        simp only [headerLines, headerLine, List.length_append, List.length_cons,
          List.length_nil]
        omega
      unfold parseHeaderLoop
      rw [if_neg hlen]
      simp only [headerLines, List.append_assoc]
      rw [parseHeaderLine_line key value _ hk1 hv1.1 hv1.2.1 hv1.2.2]
      simp only [List.foldl_cons]
      exact ih fuel _ (by simpa using hfuel)
        (fun kv h => hk kv (List.mem_cons_of_mem _ h))
        (fun kv h => hv kv (List.mem_cons_of_mem _ h))

theorem parseHeaderFields_lines (hdrs : List (List Nat × List Nat))
    (hk : ∀ kv ∈ hdrs, ∀ c ∈ kv.1, c ≠ 58)
    (hv : ∀ kv ∈ hdrs, (∀ c ∈ kv.2, c ≠ 13) ∧ kv.2.head? ≠ some 32 ∧ kv.2.head? ≠ some 9) :
    parseHeaderFields (headerLines hdrs ++ [13, 10]) =
      some (hdrs.foldl (fun f kv => mapSet f kv.1 kv.2) []) := by
  unfold parseHeaderFields
  apply parseHeaderLoop_lines _ _ _ _ hk hv
  have := headerLines_length hdrs
  simp only [List.length_append]
  omega

theorem mapFind_mapSet (m : FieldMap) (k v key : List Nat) :
    mapFind (mapSet m k v) key = if k = key then some v else mapFind m key := by
  induction m with
  | nil =>
    by_cases h : k = key <;> simp [mapSet, mapFind, List.find?, h]
  | cons e m ih =>
    obtain ⟨k1, v1⟩ := e
    unfold mapFind at ih ⊢
    unfold mapSet
    by_cases h1 : k = k1
    · subst h1
      by_cases h : k = key <;> simp [List.find?, h]
    · rw [if_neg h1]
      by_cases h2 : strLess k k1 = true
      · rw [if_pos h2]
        by_cases h : k = key <;> simp [List.find?, h]
      · rw [if_neg h2]
        by_cases h3 : k1 = key
        · subst h3
          simp [List.find?, h1]
        · simp only [List.find?, h3, decide_False]
          exact ih

theorem mapFind_foldl_mapSet (hdrs : List (List Nat × List Nat)) (m : FieldMap) (key : List Nat) :
    mapFind (hdrs.foldl (fun f kv => mapSet f kv.1 kv.2) m) key =
      (lastValue hdrs key).or (mapFind m key) := by
  induction hdrs generalizing m with
  | nil => simp [lastValue]
  | cons kv hdrs ih =>
    rw [List.foldl_cons, ih, mapFind_mapSet]
    unfold lastValue
    rw [List.reverse_cons, List.find?_append]
    cases hf : hdrs.reverse.find? (fun kv => decide (kv.1 = key)) with
    | some e => simp
    | none =>
      by_cases h : kv.1 = key <;> simp [List.find?, h]

/-! ## The fuel of the loops is enough -/

theorem length_dropWhile_le (p : Nat → Bool) (l : List Nat) :
    (l.dropWhile p).length ≤ l.length :=
  (List.dropWhile_sublist p).length_le

theorem parseHeaderLine_length (rest key value rest3 : List Nat)
    (h : parseHeaderLine rest = some (key, value, rest3)) :
    rest3.length + 3 ≤ rest.length := by
  unfold parseHeaderLine at h
  have h0 := length_dropWhile_le (fun c => decide (c ≠ 58)) rest
  cases hd1 : rest.dropWhile (fun c => decide (c ≠ 58)) with
  | nil =>
    rw [hd1] at h
    simp at h
  | cons c1 rest1 =>
    rw [hd1] at h h0
    simp only at h
    split_ifs at h
    have h1 := length_dropWhile_le (fun c => decide (c = 32 ∨ c = 9)) rest1
    have h2 := length_dropWhile_le (fun c => decide (c ≠ 13))
      (rest1.dropWhile (fun c => decide (c = 32 ∨ c = 9)))
    cases hd2 : (rest1.dropWhile (fun c => decide (c = 32 ∨ c = 9))).dropWhile
        (fun c => decide (c ≠ 13)) with
    | nil =>
      rw [hd2] at h
      simp at h
    | cons c3 r =>
      cases r with
      | nil =>
        rw [hd2] at h
        simp at h
      | cons c4 r3 =>
        rw [hd2] at h h2
        simp only at h
        split_ifs at h
        simp only [Option.some.injEq, Prod.mk.injEq] at h
        obtain ⟨_, _, h3⟩ := h
        subst h3
        simp only [List.length_cons] at h0 h2
        omega

theorem parseHeaderLoop_fuel (fuel1 fuel2 : Nat) (rest : List Nat) (fields : FieldMap)
    (h1 : rest.length ≤ fuel1) (h2 : rest.length ≤ fuel2) :
    parseHeaderLoop fuel1 rest fields = parseHeaderLoop fuel2 rest fields := by
  induction fuel1 generalizing fuel2 rest fields with
  | zero =>
    have : rest.length ≤ 2 := by omega
    unfold parseHeaderLoop
    simp [this]
  | succ n ih =>
    by_cases hlen : rest.length ≤ 2
    · unfold parseHeaderLoop
      simp [hlen]
    · cases fuel2 with
      | zero => omega
      | succ k =>
        rw [parseHeaderLoop, parseHeaderLoop]
        simp only [hlen, if_false]
        cases hl : parseHeaderLine rest with
        | none => rfl
        | some r =>
          obtain ⟨key, value, rest3⟩ := r
          have := parseHeaderLine_length rest key value rest3 hl
          exact ih k rest3 _ (by omega) (by omega)

theorem writeLoop_fuel (BUFSIZ fuel : Nat) (r : Response) (data : List Nat) (h : 2 ≤ fuel) :
    Implementation.writeLoop BUFSIZ fuel r data = Implementation.write BUFSIZ r data := by
  obtain ⟨k, rfl⟩ : ∃ k, fuel = k + 2 := ⟨fuel - 2, by omega⟩
  unfold Implementation.write
  simp [Implementation.writeLoop, Implementation.writeBuffer]

/-! ## Lemmas on the response buffer -/

theorem write_eq (BUFSIZ : Nat) (r : Response) (data : List Nat) :
    ∃ s b, Implementation.write BUFSIZ r data = { r with sent := s, sendBuffer := b } ∧
      s ++ b = r.sent ++ r.sendBuffer ++ data := by
  unfold Implementation.write Implementation.writeLoop
  by_cases h1 : r.sendBuffer = []
  · by_cases h2 : data.length ≥ BUFSIZ
    · exact ⟨r.sent ++ data, r.sendBuffer, by simp [h1, h2, Implementation.writeBuffer],
        by simp [h1]⟩
    · exact ⟨r.sent, r.sendBuffer ++ data, by simp [h1, h2], by simp⟩
  · by_cases h3 : r.sendBuffer.length + data.length < BUFSIZ
    · exact ⟨r.sent, r.sendBuffer ++ data, by simp [h1, h3], by simp⟩
    · by_cases h2 : data.length ≥ BUFSIZ
      · exact ⟨r.sent ++ r.sendBuffer ++ data, [],
          by simp [h1, h3, h2, Implementation.writeLoop, Implementation.writeBuffer], by simp⟩
      · exact ⟨r.sent ++ r.sendBuffer, data,
          by simp [h1, h3, h2, Implementation.writeLoop, Implementation.writeBuffer], by simp⟩

@[simp] theorem write_version (BUFSIZ : Nat) (r : Response) (data : List Nat) :
    (Implementation.write BUFSIZ r data).version = r.version := by
  obtain ⟨s, b, h, _⟩ := write_eq BUFSIZ r data
  rw [h]

@[simp] theorem write_statusCode (BUFSIZ : Nat) (r : Response) (data : List Nat) :
    (Implementation.write BUFSIZ r data).statusCode = r.statusCode := by
  obtain ⟨s, b, h, _⟩ := write_eq BUFSIZ r data
  rw [h]

@[simp] theorem write_statusMessage (BUFSIZ : Nat) (r : Response) (data : List Nat) :
    (Implementation.write BUFSIZ r data).statusMessage = r.statusMessage := by
  obtain ⟨s, b, h, _⟩ := write_eq BUFSIZ r data
  rw [h]

@[simp] theorem write_contentType (BUFSIZ : Nat) (r : Response) (data : List Nat) :
    (Implementation.write BUFSIZ r data).contentType = r.contentType := by
  obtain ⟨s, b, h, _⟩ := write_eq BUFSIZ r data
  rw [h]

@[simp] theorem write_fields (BUFSIZ : Nat) (r : Response) (data : List Nat) :
    (Implementation.write BUFSIZ r data).fields = r.fields := by
  obtain ⟨s, b, h, _⟩ := write_eq BUFSIZ r data
  rw [h]

@[simp] theorem write_headerSent (BUFSIZ : Nat) (r : Response) (data : List Nat) :
    (Implementation.write BUFSIZ r data).headerSent = r.headerSent := by
  obtain ⟨s, b, h, _⟩ := write_eq BUFSIZ r data
  rw [h]

@[simp] theorem write_stream (BUFSIZ : Nat) (r : Response) (data : List Nat) :
    (Implementation.write BUFSIZ r data).stream = r.stream ++ data := by
  obtain ⟨s, b, h, hs⟩ := write_eq BUFSIZ r data
  rw [h]
  exact hs

theorem writeFields_stream (BUFSIZ : Nat) (m : FieldMap) (r : Response) :
    (m.foldl (fun r it => Implementation.write BUFSIZ (Implementation.write BUFSIZ
      (Implementation.write BUFSIZ (Implementation.write BUFSIZ r it.1) (bytes ": ")) it.2)
      (bytes "\r\n")) r).stream = r.stream ++ fieldLines m := by
  induction m generalizing r with
  | nil => simp [fieldLines]
  | cons it m ih =>
    rw [List.foldl_cons, ih]
    simp [fieldLines]

theorem sendHeader_stream (BUFSIZ : Nat) (r : Response) :
    (Implementation.sendHeader BUFSIZ r).stream = r.stream ++ headerText r := by
  unfold Implementation.sendHeader
  simp only [write_stream, writeFields_stream, write_version, write_statusCode,
    write_statusMessage, write_contentType, write_fields]
  simp [headerText, Response.stream]

theorem destroy_sent (BUFSIZ : Nat) (r : Response) :
    (Response.destroy BUFSIZ r).sent =
      (if r.headerSent then r else Implementation.sendHeader BUFSIZ r).stream := by
  unfold Response.destroy
  generalize (if r.headerSent then r else Implementation.sendHeader BUFSIZ r) = r2
  by_cases h : r2.sendBuffer = []
  · simp [h, Response.stream]
  · simp [h, Response.stream, Implementation.writeBuffer]

theorem destroy_create_sent (BUFSIZ : Nat) :
    (Response.destroy BUFSIZ Response.create).sent =
      bytes ("HTTP/1.1 501 Not Implemented\r\n" ++
        "Content-Type: application/octet-stream\r\nConnection: Close\r\n\r\n") := by
  rw [destroy_sent]
  have h : Response.create.headerSent = false := rfl
  simp only [h, Bool.false_eq_true, if_false]
  rw [sendHeader_stream]
  decide

/-! ## Lemmas on the order of strings -/

theorem strLess_irrefl (a : List Nat) : strLess a a = false := by
  induction a with
  | nil => rfl
  | cons x a ih => simp [strLess, ih]

theorem strLess_trans (a b c : List Nat) (h1 : strLess a b = true) (h2 : strLess b c = true) :
    strLess a c = true := by
  induction a generalizing b c with
  | nil =>
    cases c with
    | nil => cases b <;> simp [strLess] at h2
    | cons z c => rfl
  | cons x a ih =>
    cases b with
    | nil => simp [strLess] at h1
    | cons y b =>
      cases c with
      | nil => simp [strLess] at h2
      | cons z c =>
        simp only [strLess] at h1 h2 ⊢
        split_ifs at h1 h2 ⊢ <;> first | rfl | omega | (exact ih b c h1 h2)

theorem strLess_total (a b : List Nat) (h1 : a ≠ b) (h2 : strLess a b = false) :
    strLess b a = true := by
  induction a generalizing b with
  | nil =>
    cases b with
    | nil => exact absurd rfl h1
    | cons y b => simp [strLess] at h2
  | cons x a ih =>
    cases b with
    | nil => rfl
    | cons y b =>
      simp only [strLess] at h2 ⊢
      split_ifs at h2 ⊢ <;> first | rfl | omega | skip
      all_goals
        have hxy : x = y := by omega
        subst hxy
        exact ih b (fun h => h1 (by rw [h])) h2

/-! ## Lemmas on a sequence of writes -/

theorem writeFields_headerSent (BUFSIZ : Nat) (m : FieldMap) (r : Response) :
    (m.foldl (fun r it => Implementation.write BUFSIZ (Implementation.write BUFSIZ
      (Implementation.write BUFSIZ (Implementation.write BUFSIZ r it.1) (bytes ": ")) it.2)
      (bytes "\r\n")) r).headerSent = r.headerSent := by
  induction m generalizing r with
  | nil => rfl
  | cons it m ih =>
    rw [List.foldl_cons, ih]
    simp only [write_headerSent]

theorem sendHeader_headerSent (BUFSIZ : Nat) (r : Response) :
    (Implementation.sendHeader BUFSIZ r).headerSent = true := by
  unfold Implementation.sendHeader
  simp only [write_headerSent, writeFields_headerSent]

theorem Response_write_stream (BUFSIZ : Nat) (r : Response) (data : List Nat) :
    (Response.write BUFSIZ r data).stream =
      (if r.headerSent then r.stream else r.stream ++ headerText r) ++ data := by
  unfold Response.write
  by_cases h : r.headerSent = true
  · simp [h]
  · simp only [h, Bool.false_eq_true, if_false]
    rw [write_stream, sendHeader_stream]

theorem Response_write_headerSent (BUFSIZ : Nat) (r : Response) (data : List Nat) :
    (Response.write BUFSIZ r data).headerSent = true := by
  unfold Response.write
  by_cases h : r.headerSent = true
  · simp [h]
  · simp only [h, Bool.false_eq_true, if_false]
    rw [write_headerSent, sendHeader_headerSent]

theorem foldl_write_stream (BUFSIZ : Nat) (ws : List (List Nat)) (r : Response)
    (h : r.headerSent = true) :
    (ws.foldl (Response.write BUFSIZ) r).stream = r.stream ++ ws.flatten ∧
    (ws.foldl (Response.write BUFSIZ) r).headerSent = true := by
  induction ws generalizing r with
  | nil => simp [h]
  | cons w ws ih =>
    rw [List.foldl_cons]
    obtain ⟨h1, h2⟩ := ih (Response.write BUFSIZ r w) (Response_write_headerSent BUFSIZ r w)
    rw [h1, h2, Response_write_stream]
    simp [h]

/-! ## Lemmas on the header read loop -/

theorem readLoop_cons (BUFSIZ : Nat) (buffer : List Nat) (b : Nat) (incoming : List Nat) :
    readLoop BUFSIZ buffer (b :: incoming) =
      if BUFSIZ = buffer.length then none
      else if (buffer ++ [b]).length ≥ BUFSIZ then none
      else if headerComplete (buffer ++ [b]) then some (buffer ++ [b])
      else readLoop BUFSIZ (buffer ++ [b]) incoming := by
  rw [readLoop]

theorem readLoop_nil (BUFSIZ : Nat) (buffer : List Nat) :
    readLoop BUFSIZ buffer [] = none := by
  rw [readLoop]
  split_ifs <;> rfl

theorem readLoop_some (BUFSIZ : Nat) (buffer incoming result : List Nat)
    (h : readLoop BUFSIZ buffer incoming = some result) :
    (∃ rest, buffer ++ incoming = result ++ rest) ∧ result.length < BUFSIZ ∧
      headerComplete result = true := by
  induction incoming generalizing buffer with
  | nil => rw [readLoop_nil] at h; exact absurd h (by simp)
  | cons b incoming ih =>
    rw [readLoop_cons] at h
    split_ifs at h with h1 h2 h3
    · simp only [Option.some.injEq] at h
      subst h
      exact ⟨⟨incoming, by simp⟩, by omega, h3⟩
    · obtain ⟨⟨rest, hr⟩, hlen, hc⟩ := ih (buffer ++ [b]) h
      exact ⟨⟨rest, by rw [← hr]; simp⟩, hlen, hc⟩

theorem headerComplete_suffix (buffer : List Nat) (h : headerComplete buffer = true) :
    [13, 10, 13, 10] <:+ buffer := by
  unfold headerComplete at h
  simp only [Bool.and_eq_true, decide_eq_true_eq] at h
  rw [← h.2]
  exact List.drop_suffix _ _

theorem readHeader_some (BUFSIZ : Nat) (incoming result : List Nat)
    (h : readHeader BUFSIZ incoming = some result) :
    result <+: incoming.take BUFSIZ ∧ result.length < BUFSIZ ∧ [13, 10, 13, 10] <:+ result := by
  obtain ⟨⟨rest, hr⟩, hlen, hc⟩ := readLoop_some BUFSIZ [] incoming result h
  rw [List.nil_append] at hr
  refine ⟨?_, hlen, headerComplete_suffix result hc⟩
  rw [hr, List.take_append_eq_append_take]
  have : BUFSIZ - result.length ≠ 0 := by omega
  rw [List.take_of_length_le (by omega)]
  exact List.prefix_append _ _

/-! ## Lemmas on the order of a field map -/

theorem mapSet_mem (m : FieldMap) (key value : List Nat) (e : List Nat × List Nat)
    (h : e ∈ mapSet m key value) : e.1 = key ∨ e ∈ m := by
  induction m with
  | nil =>
    simp only [mapSet, List.mem_singleton] at h
    exact Or.inl (by rw [h])
  | cons kv m ih =>
    obtain ⟨k, v⟩ := kv
    unfold mapSet at h
    split_ifs at h with h1 h2
    · rcases List.mem_cons.mp h with h | h
      · exact Or.inl (by rw [h, h1])
      · exact Or.inr (List.mem_cons_of_mem _ h)
    · rcases List.mem_cons.mp h with h | h
      · exact Or.inl (by rw [h])
      · exact Or.inr h
    · rcases List.mem_cons.mp h with h | h
      · exact Or.inr (by rw [h]; exact List.mem_cons_self _ _)
      · rcases ih h with h | h
        · exact Or.inl h
        · exact Or.inr (List.mem_cons_of_mem _ h)

theorem mapSet_sorted (m : FieldMap) (key value : List Nat)
    (h : m.Pairwise (fun a b => strLess a.1 b.1 = true)) :
    (mapSet m key value).Pairwise (fun a b => strLess a.1 b.1 = true) := by
  induction m with
  | nil => simp [mapSet]
  | cons kv m ih =>
    obtain ⟨k, v⟩ := kv
    rw [List.pairwise_cons] at h
    unfold mapSet
    split_ifs with h1 h2
    · rw [List.pairwise_cons]
      exact ⟨h.1, h.2⟩
    · rw [List.pairwise_cons]
      refine ⟨?_, List.pairwise_cons.mpr h⟩
      intro e he
      rcases List.mem_cons.mp he with he | he
      · rw [he]; exact h2
      · exact strLess_trans _ _ _ h2 (h.1 e he)
    · rw [List.pairwise_cons]
      refine ⟨?_, ih h.2⟩
      intro e he
      rcases mapSet_mem m key value e he with he | he
      · rw [he]
        exact strLess_total key k h1 (by simpa using h2)
      · exact h.1 e he

theorem fieldsAfter_sorted (sets : List (List Nat × List Nat)) :
    (fieldsAfter sets).Pairwise (fun a b => strLess a.1 b.1 = true) := by
  unfold fieldsAfter
  suffices h : ∀ m : FieldMap, m.Pairwise (fun a b => strLess a.1 b.1 = true) →
      (sets.foldl (fun m kv => mapSet m kv.1 kv.2) m).Pairwise
        (fun a b => strLess a.1 b.1 = true) from h [] List.Pairwise.nil
  induction sets with
  | nil => intro m hm; exact hm
  | cons kv sets ih =>
    intro m hm
    rw [List.foldl_cons]
    exact ih _ (mapSet_sorted m kv.1 kv.2 hm)

/-! ## Lemmas on the segments that sanitizepath keeps -/

theorem tokenize_sublist_segments (path : List Nat) :
    (tokenize path).Sublist (segments path) := by
  generalize hn : path.length = n
  induction n using Nat.strong_induction_on generalizing path with
  | _ n ih =>
    have hsplit := List.takeWhile_append_dropWhile (fun c => decide (c ≠ 47)) path
    have ht : 47 ∉ path.takeWhile (fun c => decide (c ≠ 47)) := by
      intro hmem
      have := List.mem_takeWhile_imp hmem
      simp at this
    cases hd : path.dropWhile (fun c => decide (c ≠ 47)) with
    | nil =>
      rw [hd, List.append_nil] at hsplit
      rw [hsplit] at ht
      by_cases hp : path = []
      · subst hp
        rw [tokenize_nil]
        exact List.nil_sublist _
      · rw [tokenize_single path ht hp, segments_no_slash path ht]
    | cons b p2 =>
      have hb : b = 47 := by
        have := dropWhile_head_stop _ path b p2 hd
        simpa using this
      subst hb
      rw [hd] at hsplit
      have hlen : p2.length < n := by
        rw [← hn, ← hsplit]
        simp
        omega
      have ih2 := ih p2.length hlen p2 rfl
      rw [← hsplit, tokenize_token_slash _ _ ht, segments_append_slash,
        segments_no_slash _ ht]
      exact List.Sublist.cons₂ _ ih2

theorem intercalate_cons (t : List Nat) (kept : List (List Nat)) :
    [47].intercalate (t :: kept) = if kept = [] then t else t ++ 47 :: [47].intercalate kept := by
  cases kept with
  | nil => simp [List.intercalate, List.intersperse]
  | cons u kept => simp [intercalate_cons_cons]

theorem intercalate_eq_nil (kept : List (List Nat)) (hk : ∀ t ∈ kept, t ≠ [])
    (h : [47].intercalate kept = []) : kept = [] := by
  cases kept with
  | nil => rfl
  | cons t kept =>
    have ht := hk t (List.mem_cons_self _ _)
    rw [intercalate_cons] at h
    split_ifs at h
    · exact absurd h ht
    · simp at h

theorem foldl_reassembleStep_kept (l : List (List Nat)) (st : Bool × List Nat)
    (kept done : List (List Nat))
    (hst : st.2 = [47].intercalate kept)
    (hk : ∀ t ∈ kept, t ≠ [] ∧ t ≠ [46] ∧ t ≠ [46, 46])
    (hsub : kept.Sublist done) :
    ∃ kept2, (l.foldl reassembleStep st).2 = [47].intercalate kept2 ∧
      (∀ t ∈ kept2, t ≠ [] ∧ t ≠ [46] ∧ t ≠ [46, 46]) ∧
      kept2.Sublist (l.reverse ++ done) := by
  induction l generalizing st kept done with
  | nil => exact ⟨kept, hst, hk, by simpa using hsub⟩
  | cons t l ih =>
    rw [List.foldl_cons]
    have hrev : (t :: l).reverse ++ done = l.reverse ++ t :: done := by simp
    rw [hrev]
    have same : (reassembleStep st t).2 = st.2 →
        ∃ kept2, (l.foldl reassembleStep (reassembleStep st t)).2 = [47].intercalate kept2 ∧
          (∀ t ∈ kept2, t ≠ [] ∧ t ≠ [46] ∧ t ≠ [46, 46]) ∧
          kept2.Sublist (l.reverse ++ t :: done) := fun e =>
      ih (reassembleStep st t) kept (t :: done) (by rw [e, hst]) hk (List.Sublist.cons _ hsub)
    by_cases h1 : st.1 = true
    · exact same (by simp [reassembleStep, h1])
    · by_cases h2 : t = []
      · exact same (by simp [reassembleStep, h1, h2])
      · by_cases h3 : t = [46]
        · exact same (by simp [reassembleStep, h1, h3])
        · by_cases h4 : t = [46, 46]
          · exact same (by simp [reassembleStep, h1, h4])
          · have hk2 : ∀ u ∈ t :: kept, u ≠ [] ∧ u ≠ [46] ∧ u ≠ [46, 46] := by
              intro u hu
              rcases List.mem_cons.mp hu with hu | hu
              · rw [hu]; exact ⟨h2, h3, h4⟩
              · exact hk u hu
            refine ih (reassembleStep st t) (t :: kept) (t :: done) ?_ hk2
              (List.Sublist.cons₂ _ hsub)
            rw [intercalate_cons]
            by_cases h5 : st.2 = []
            · have hkn : kept = [] :=
                intercalate_eq_nil kept (fun u hu => (hk u hu).1) (by rw [← hst, h5])
              simp [reassembleStep, h1, h2, h3, h4, h5, hkn]
            · have hkn : kept ≠ [] := by
                intro hkn
                apply h5
                rw [hst, hkn]
                rfl
              have h6 : ¬ [47].intercalate kept = [] := by rw [← hst]; exact h5
              simp [reassembleStep, h1, h2, h3, h4, hkn, hst, h6]

theorem reassemble_kept (path : List Nat) :
    ∃ kept, reassemble (tokenize path) = [47].intercalate kept ∧
      (∀ t ∈ kept, t ≠ [] ∧ t ≠ [46] ∧ t ≠ [46, 46]) ∧
      kept.Sublist (segments path) := by
  obtain ⟨kept, h1, h2, h3⟩ := foldl_reassembleStep_kept (tokenize path).reverse (false, [])
    [] [] rfl (by simp) (List.Sublist.refl _)
  refine ⟨kept, h1, h2, ?_⟩
  rw [List.reverse_reverse, List.append_nil] at h3
  exact h3.trans (tokenize_sublist_segments path)

/-! ## Lemmas on the query parameters -/

theorem queryPieces_nil : queryPieces [] = [] := by decide

theorem queryPieces_cons (c : Nat) (q : List Nat) :
    queryPieces (c :: q) = (c :: q).takeWhile (fun c => c ≠ 38) ::
      queryPieces (((c :: q).dropWhile (fun c => c ≠ 38)).drop 1) := by
  have hsplit := List.takeWhile_append_dropWhile (fun c => decide (c ≠ 38)) (c :: q)
  have ht : ∀ x ∈ (c :: q).takeWhile (fun c => decide (c ≠ 38)), ¬ (x == 38) = true := by
    intro x hx
    have := List.mem_takeWhile_imp hx
    simpa using this
  cases hd : (c :: q).dropWhile (fun c => decide (c ≠ 38)) with
  | nil =>
    rw [hd, List.append_nil] at hsplit
    rw [hsplit] at ht
    have e : (c :: q).splitOn 38 = [c :: q] := List.splitOnP_eq_single _ _ ht
    rw [hsplit]
    simp [queryPieces, e, queryPieces_nil]
  | cons b r =>
    have hb : b = 38 := by
      have := dropWhile_head_stop _ (c :: q) b r hd
      simpa using this
    subst hb
    rw [hd] at hsplit
    have e : (c :: q).splitOn 38 =
        (c :: q).takeWhile (fun c => decide (c ≠ 38)) :: r.splitOn 38 := by
      conv_lhs => rw [← hsplit]
      exact List.splitOnP_first _ _ ht 38 (by simp) r
    have hne : r.splitOn 38 ≠ [] := List.splitOnP_ne_nil _ _
    obtain ⟨x, xs, hx⟩ : ∃ x xs, r.splitOn 38 = x :: xs := by
      cases hr : r.splitOn 38 with
      | nil => exact absurd hr hne
      | cons x xs => exact ⟨x, xs, rfl⟩
    unfold queryPieces
    rw [e, List.drop_one, List.tail_cons, hx, List.getLast?_cons_cons, List.dropLast_cons₂]
    split_ifs <;> rfl

theorem parseQueryLoop_eq (fuel : Nat) (q : List Nat) (m : List (List Nat × List Nat))
    (h : q.length ≤ fuel) :
    parseQueryLoop fuel q m =
      (queryPieces q).foldl (fun m tok => multimapInsert m (queryPair tok).1 (queryPair tok).2) m := by
  induction fuel generalizing q m with
  | zero =>
    have : q = [] := List.length_eq_zero.mp (by omega)
    subst this
    rfl
  | succ n ih =>
    cases q with
    | nil => rfl
    | cons c q =>
      have hlt := length_dropWhile_drop_lt (fun c => decide (c ≠ 38)) (c :: q) (by simp)
      rw [parseQueryLoop, queryPieces_cons, List.foldl_cons]
      simp only [List.cons_ne_nil, if_false, reduceCtorEq]
      rw [ih _ _ (by simp only [List.length_cons] at hlt h; omega)]
      rfl

theorem multimapInsert_perm (m : List (List Nat × List Nat)) (key value : List Nat) :
    (multimapInsert m key value).Perm ((key, value) :: m) := by
  induction m with
  | nil => exact List.Perm.refl _
  | cons kv m ih =>
    obtain ⟨k, v⟩ := kv
    unfold multimapInsert
    split_ifs
    · exact List.Perm.refl _
    · exact (List.Perm.cons _ ih).trans (List.Perm.swap _ _ _)

theorem multimapInsert_mem (m : List (List Nat × List Nat)) (key value : List Nat)
    (e : List Nat × List Nat) (h : e ∈ multimapInsert m key value) :
    e = (key, value) ∨ e ∈ m := by
  have := (multimapInsert_perm m key value).mem_iff.mp h
  exact List.mem_cons.mp this

theorem multimapInsert_sorted (m : List (List Nat × List Nat)) (key value : List Nat)
    (h : m.Pairwise (fun a b => strLess b.1 a.1 = false)) :
    (multimapInsert m key value).Pairwise (fun a b => strLess b.1 a.1 = false) := by
  induction m with
  | nil => simp [multimapInsert]
  | cons kv m ih =>
    obtain ⟨k, v⟩ := kv
    have h0 := List.pairwise_cons.mp h
    unfold multimapInsert
    split_ifs with h1
    · rw [List.pairwise_cons]
      refine ⟨?_, h⟩
      intro e he
      rcases List.mem_cons.mp he with he | he
      · rw [he]
        cases hc : strLess k key with
        | false => rfl
        | true =>
          have := strLess_trans _ _ _ h1 hc
          rw [strLess_irrefl] at this
          exact absurd this (by simp)
      · cases hc : strLess e.1 key with
        | false => rfl
        | true =>
          have h2 := strLess_trans _ _ _ hc h1
          have h3 := h0.1 e he
          simp only at h3
          rw [h2] at h3
          exact absurd h3 (by simp)
    · rw [List.pairwise_cons]
      refine ⟨?_, ih h0.2⟩
      intro e he
      rcases multimapInsert_mem m key value e he with he | he
      · rw [he]
        simpa using h1
      · exact h0.1 e he

theorem filter_cons_append (p : List Nat × List Nat → Bool) (a : List Nat × List Nat)
    (l : List (List Nat × List Nat)) :
    (a :: l).filter p = [a].filter p ++ l.filter p := by
  rw [← List.filter_append]
  rfl

theorem multimapInsert_filter (m : List (List Nat × List Nat)) (key value k : List Nat)
    (h : m.Pairwise (fun a b => strLess b.1 a.1 = false)) :
    (multimapInsert m key value).filter (fun e => e.1 = k) =
      m.filter (fun e => e.1 = k) ++ [(key, value)].filter (fun e => e.1 = k) := by
  induction m with
  | nil => simp [multimapInsert]
  | cons kv m ih =>
    obtain ⟨k1, v1⟩ := kv
    have h0 := List.pairwise_cons.mp h
    unfold multimapInsert
    split_ifs with h1
    · by_cases hk : key = k
      · subst hk
        have hnone : ((k1, v1) :: m).filter (fun e => decide (e.1 = key)) = [] := by
          rw [List.filter_eq_nil_iff]
          intro e he
          simp only [decide_eq_true_eq]
          intro heq
          rcases List.mem_cons.mp he with he | he
          · rw [he] at heq
            simp only at heq
            rw [heq, strLess_irrefl] at h1
            exact absurd h1 (by simp)
          · have h3 := h0.1 e he
            simp only at h3
            rw [heq, h1] at h3
            exact absurd h3 (by simp)
        rw [filter_cons_append _ (key, value), hnone]
        simp
      · have e1 : [(key, value)].filter (fun e => decide (e.1 = k)) = [] := by
          simp [hk]
        rw [filter_cons_append _ (key, value), e1]
        simp
    · rw [filter_cons_append _ (k1, v1), ih h0.2, filter_cons_append _ (k1, v1) m,
        List.append_assoc]

theorem foldl_multimapInsert (l : List (List Nat × List Nat)) (m : List (List Nat × List Nat))
    (h : m.Pairwise (fun a b => strLess b.1 a.1 = false)) :
    (∀ k, (l.foldl (fun m e => multimapInsert m e.1 e.2) m).filter (fun e => e.1 = k) =
        m.filter (fun e => e.1 = k) ++ l.filter (fun e => e.1 = k)) ∧
    (l.foldl (fun m e => multimapInsert m e.1 e.2) m).Perm (m ++ l) ∧
    (l.foldl (fun m e => multimapInsert m e.1 e.2) m).Pairwise
      (fun a b => strLess b.1 a.1 = false) := by
  induction l generalizing m with
  | nil => simp [h]
  | cons e l ih =>
    rw [List.foldl_cons]
    obtain ⟨i1, i2, i3⟩ := ih (multimapInsert m e.1 e.2) (multimapInsert_sorted m e.1 e.2 h)
    refine ⟨?_, ?_, i3⟩
    · intro k
      rw [i1 k, multimapInsert_filter m e.1 e.2 k h, List.append_assoc,
        filter_cons_append _ e l]
    · refine i2.trans ?_
      have p1 := (multimapInsert_perm m e.1 e.2).append_right l
      refine p1.trans ?_
      simp only [List.cons_append]
      exact (@List.perm_middle _ e m l).symm

theorem foldl_map_pair (l : List (List Nat)) (m : List (List Nat × List Nat)) :
    l.foldl (fun m tok => multimapInsert m (queryPair tok).1 (queryPair tok).2) m =
      (l.map queryPair).foldl (fun m e => multimapInsert m e.1 e.2) m := by
  induction l generalizing m with
  | nil => rfl
  | cons t l ih => rw [List.foldl_cons, List.map_cons, List.foldl_cons, ih]

theorem parseQuery_parameters_eq (target : List Nat) :
    (parseQuery target).2 =
      ((queryPieces (queryText target)).map queryPair).foldl
        (fun m e => multimapInsert m e.1 e.2) [] := by
  unfold parseQuery queryText
  cases hd : target.dropWhile (fun c => decide (c ≠ 63)) with
  | nil => simp [queryPieces_nil]
  | cons b q =>
    simp only [List.drop_one, List.tail_cons]
    rw [parseQueryLoop_eq _ _ _ (Nat.le_refl _), foldl_map_pair]

/-! ## Lemmas on the size of the send buffer -/

theorem write_buffer_lt (BUFSIZ : Nat) (r : Response) (data : List Nat)
    (h : r.sendBuffer.length < BUFSIZ) :
    (Implementation.write BUFSIZ r data).sendBuffer.length < BUFSIZ := by
  unfold Implementation.write Implementation.writeLoop
  by_cases h1 : r.sendBuffer = []
  · by_cases h2 : data.length ≥ BUFSIZ
    · simp only [h1, h2, if_true, Implementation.writeBuffer]
      rw [h1] at h
      exact h
    · simp only [h1, h2, if_true, if_false, List.nil_append]
      omega
  · by_cases h3 : r.sendBuffer.length + data.length < BUFSIZ
    · simp only [h1, h3, if_true, if_false, List.length_append]
    · by_cases h2 : data.length ≥ BUFSIZ
      · simp only [h1, h3, h2, if_true, if_false, Implementation.writeLoop,
          Implementation.writeBuffer]
        simp only [List.length_nil]
        omega
      · simp only [h1, h3, h2, if_true, if_false, Implementation.writeLoop,
          Implementation.writeBuffer, List.nil_append]
        omega

theorem writeFields_buffer_lt (BUFSIZ : Nat) (m : FieldMap) (r : Response)
    (h : r.sendBuffer.length < BUFSIZ) :
    (m.foldl (fun r it => Implementation.write BUFSIZ (Implementation.write BUFSIZ
      (Implementation.write BUFSIZ (Implementation.write BUFSIZ r it.1) (bytes ": ")) it.2)
      (bytes "\r\n")) r).sendBuffer.length < BUFSIZ := by
  induction m generalizing r with
  | nil => exact h
  | cons it m ih =>
    rw [List.foldl_cons]
    exact ih _ (write_buffer_lt _ _ _ (write_buffer_lt _ _ _ (write_buffer_lt _ _ _
      (write_buffer_lt _ _ _ h))))

theorem sendHeader_buffer_lt (BUFSIZ : Nat) (r : Response)
    (h : r.sendBuffer.length < BUFSIZ) :
    (Implementation.sendHeader BUFSIZ r).sendBuffer.length < BUFSIZ := by
  unfold Implementation.sendHeader
  have h0 : ({ r with headerSent := true } : Response).sendBuffer.length < BUFSIZ := h
  exact write_buffer_lt _ _ _ (writeFields_buffer_lt _ _ _ (write_buffer_lt _ _ _
    (write_buffer_lt _ _ _ (write_buffer_lt _ _ _ (write_buffer_lt _ _ _
    (write_buffer_lt _ _ _ (write_buffer_lt _ _ _ (write_buffer_lt _ _ _
    (write_buffer_lt _ _ _ (write_buffer_lt _ _ _ (write_buffer_lt _ _ _ h0)))))))))))

theorem Response_write_buffer_lt (BUFSIZ : Nat) (r : Response) (data : List Nat)
    (h : r.sendBuffer.length < BUFSIZ) :
    (Response.write BUFSIZ r data).sendBuffer.length < BUFSIZ := by
  unfold Response.write
  by_cases hs : r.headerSent = true
  · simp only [hs, if_true]
    exact write_buffer_lt _ _ _ h
  · simp only [hs, Bool.false_eq_true, if_false]
    exact write_buffer_lt _ _ _ (sendHeader_buffer_lt _ _ h)

theorem Action_run_buffer_lt (BUFSIZ : Nat) (r : Response) (a : Action)
    (h : r.sendBuffer.length < BUFSIZ) :
    (Action.run BUFSIZ r a).sendBuffer.length < BUFSIZ := by
  cases a with
  | write data => exact Response_write_buffer_lt _ _ _ h
  | setVersion v => exact h
  | setStatusCode n => exact h
  | setStatusMessage m => exact h
  | setContentType t => exact h
  | setField key value => exact h

theorem foldl_run_buffer_lt (BUFSIZ : Nat) (acts : List Action) (r : Response)
    (h : r.sendBuffer.length < BUFSIZ) :
    (acts.foldl (Action.run BUFSIZ) r).sendBuffer.length < BUFSIZ := by
  induction acts generalizing r with
  | nil => exact h
  | cons a acts ih =>
    rw [List.foldl_cons]
    exact ih _ (Action_run_buffer_lt _ _ _ h)

/-! ## Lemmas on the bytes delivered while writing -/

theorem flatten_take_initial (ws : List (List Nat)) (n : Nat) :
    (ws.take n).flatten <+: ws.flatten := by
  conv_rhs => rw [← List.take_append_drop n ws]
  rw [List.flatten_append]
  exact List.prefix_append _ _

theorem foldl_write_stream_fresh (BUFSIZ : Nat) (ws : List (List Nat)) (r : Response)
    (h1 : r.headerSent = false) (hs : r.stream = []) :
    (ws.foldl (Response.write BUFSIZ) r).stream =
      if ws = [] then [] else headerText r ++ ws.flatten := by
  cases ws with
  | nil => simp [hs]
  | cons w ws =>
    rw [List.foldl_cons]
    obtain ⟨e1, _⟩ := foldl_write_stream BUFSIZ ws (Response.write BUFSIZ r w)
      (Response_write_headerSent BUFSIZ r w)
    rw [e1, Response_write_stream, hs]
    simp [h1]

theorem sent_prefix_stream (r : Response) : r.sent <+: r.stream :=
  List.prefix_append _ _

/-! ## Lemmas on the size limit of the header read loop -/

theorem headerComplete_of_suffix (buffer : List Nat) (h : [13, 10, 13, 10] <:+ buffer) :
    headerComplete buffer = true := by
  obtain ⟨s, rfl⟩ := h
  unfold headerComplete
  simp

theorem prefix_dropLast (p l : List Nat) (h : p <+: l) (hlen : p.length < l.length) :
    p <+: l.dropLast := by
  obtain ⟨t, rfl⟩ := h
  have ht : t ≠ [] := by
    intro ht
    rw [ht] at hlen
    simp at hlen
  rw [List.dropLast_append_of_ne_nil _ ht]
  exact List.prefix_append _ _

theorem readLoop_block (BUFSIZ : Nat) (rest buffer more : List Nat)
    (hrest : rest ≠ [])
    (hlen : (buffer ++ rest).length < BUFSIZ)
    (hend : headerComplete (buffer ++ rest) = true)
    (hfirst : ∀ p, p <+: buffer ++ rest → buffer.length < p.length →
      p.length < (buffer ++ rest).length → headerComplete p = false) :
    readLoop BUFSIZ buffer (rest ++ more) = some (buffer ++ rest) := by
  induction rest generalizing buffer with
  | nil => exact absurd rfl hrest
  | cons b rest ih =>
    have e : buffer ++ b :: rest = (buffer ++ [b]) ++ rest := by simp
    rw [List.cons_append, readLoop_cons]
    simp only [List.length_append, List.length_cons, List.length_nil] at hlen ⊢
    rw [if_neg (by omega), if_neg (by omega)]
    by_cases hr : rest = []
    · subst hr
      rw [if_pos hend]
    · have hlt : 0 < rest.length := List.length_pos.mpr hr
      have hp : headerComplete (buffer ++ [b]) = false := by
        apply hfirst
        · rw [e]; exact List.prefix_append _ _
        · simp
        · simp only [List.length_append, List.length_cons, List.length_nil]
          omega
      rw [hp]
      simp only [Bool.false_eq_true, if_false]
      rw [e]
      apply ih (buffer ++ [b]) hr
      · simp only [List.length_append, List.length_cons, List.length_nil]
        omega
      · rw [← e]; exact hend
      · intro p hp1 hp2 hp3
        apply hfirst p
        · rw [e]; exact hp1
        · simp only [List.length_append, List.length_cons, List.length_nil] at hp2
          omega
        · rw [e]; exact hp3

theorem readHeader_block (BUFSIZ : Nat) (block more : List Nat)
    (hend : [13, 10, 13, 10] <:+ block)
    (hfirst : ¬ [13, 10, 13, 10] <:+: block.dropLast)
    (hlen : block.length < BUFSIZ) :
    readHeader BUFSIZ (block ++ more) = some block := by
  have hne : block ≠ [] := by
    intro h
    rw [h] at hend
    have := hend.length_le
    simp at this
  have := readLoop_block BUFSIZ block [] more hne (by simpa using hlen)
    (by simpa using headerComplete_of_suffix block hend)
    (by
      intro p hp1 _ hp3
      simp only [List.nil_append] at hp1 hp3
      cases hc : headerComplete p with
      | false => rfl
      | true =>
        exact absurd ((headerComplete_suffix p hc).isInfix.trans
          (prefix_dropLast p block hp1 hp3).isInfix) hfirst)
  simpa [readHeader] using this

theorem readHeader_too_long (BUFSIZ : Nat) (block more : List Nat)
    (hfirst : ¬ [13, 10, 13, 10] <:+: block.dropLast)
    (hlen : BUFSIZ ≤ block.length) :
    readHeader BUFSIZ (block ++ more) = none := by
  cases hr : readHeader BUFSIZ (block ++ more) with
  | none => rfl
  | some result =>
    obtain ⟨⟨rest, hrest⟩, hl, hc⟩ := readLoop_some BUFSIZ [] (block ++ more) result hr
    rw [List.nil_append] at hrest
    have hp : result <+: block := by
      have h1 : result <+: block ++ more := ⟨rest, hrest.symm⟩
      exact List.prefix_of_prefix_length_le h1 (List.prefix_append _ _) (by omega)
    exact absurd ((headerComplete_suffix result hc).isInfix.trans
      (prefix_dropLast result block hp (by omega)).isInfix) hfirst

theorem server_worker_handled (BUFSIZ : Nat) (handler : Handler) (incoming buffer : List Nat)
    (h : readHeader BUFSIZ incoming = some buffer) :
    (server_worker BUFSIZ handler incoming).handled = (parseRequest buffer).toList := by
  cases h2 : parseRequestLine buffer with
  | none => simp [server_worker, parseRequest, h, h2]
  | some line =>
    obtain ⟨type, rawpath, version, rest⟩ := line
    cases h3 : parseHeaderFields rest with
    | none => simp [server_worker, parseRequest, h, h2, h3]
    | some fields => simp [server_worker, parseRequest, h, h2, h3]

theorem not_infix_of_count (l : List Nat) (h : l.count 10 < 2) :
    ¬ [13, 10, 13, 10] <:+: l := by
  intro hin
  have := hin.sublist.count_le 10
  have e : List.count 10 [13, 10, 13, 10] = 2 := by decide
  omega

theorem readHeader_8192_block :
    (bytes "GET /" ++ List.replicate 8174 97 ++ bytes " HTTP/1.1\r\n\r\n").length = 8192 ∧
    ¬ [13, 10, 13, 10] <:+:
      (bytes "GET /" ++ List.replicate 8174 97 ++ bytes " HTTP/1.1\r\n\r\n").dropLast := by
  have e1 : bytes " HTTP/1.1\r\n\r\n" = bytes " HTTP/1.1\r\n\r" ++ [10] := by decide
  have e2 : (bytes "GET /").length = 5 := by decide
  have e3 : (bytes " HTTP/1.1\r\n\r").length = 12 := by decide
  have c1 : (bytes "GET /").count 10 = 0 := by decide
  have c2 : (bytes " HTTP/1.1\r\n\r").count 10 = 1 := by decide
  have c3 : (List.replicate 8174 97).count 10 = 0 := by
    rw [List.count_replicate]
    simp
  rw [e1, ← List.append_assoc]
  constructor
  · simp only [List.length_append, List.length_replicate, e2, e3, List.length_cons,
      List.length_nil]
  · rw [List.dropLast_concat]
    apply not_infix_of_count
    rw [List.count_append, List.count_append, c1, c2, c3]
    decide

theorem server_worker_of_readHeader_none (BUFSIZ : Nat) (handler : Handler)
    (incoming : List Nat) (h : readHeader BUFSIZ incoming = none) :
    server_worker BUFSIZ handler incoming = { handled := [], sent := [] } := by
  simp only [server_worker, h]

/-! ## Lemmas on the returns of the parser -/

/-- Every `return` of the request line parse and of the header field parse
destroys the `Response` constructed at line 310: the handler is not called and
the header of the fresh `Response` is sent. -/
theorem server_worker_parse_return (BUFSIZ : Nat) (handler : Handler)
    (incoming buffer : List Nat)
    (hread : readHeader BUFSIZ incoming = some buffer)
    (hfail : parseRequestLine buffer = none ∨
      ∃ line, parseRequestLine buffer = some line ∧ parseHeaderFields line.2.2.2 = none) :
    (server_worker BUFSIZ handler incoming).handled = [] ∧
    (server_worker BUFSIZ handler incoming).sent =
      bytes ("HTTP/1.1 501 Not Implemented\r\n" ++
        "Content-Type: application/octet-stream\r\nConnection: Close\r\n\r\n") := by
  have e : server_worker BUFSIZ handler incoming =
      { handled := [], sent := (Response.destroy BUFSIZ Response.create).sent } := by
    rcases hfail with h | ⟨line, h, h2⟩
    · simp only [server_worker, hread, h]
    · obtain ⟨type, rawpath, version, rest⟩ := line
      simp only at h2
      simp only [server_worker, hread, h, h2]
  rw [e]
  dsimp only
  exact ⟨rfl, destroy_create_sent BUFSIZ⟩

/-- The calls of the handler in a run of the worker, in terms of the read loop
and the parser of the model. -/
theorem server_worker_handled_bind (BUFSIZ : Nat) (handler : Handler) (incoming : List Nat) :
    (server_worker BUFSIZ handler incoming).handled =
      ((readHeader BUFSIZ incoming).bind parseRequest).toList ∧
    (server_worker BUFSIZ handler incoming).handled.length =
      if ((readHeader BUFSIZ incoming).bind (fun buffer =>
            (parseRequestLine buffer).bind (fun line =>
              parseHeaderFields line.2.2.2))).isSome
      then 1 else 0 := by
  cases h1 : readHeader BUFSIZ incoming with
  | none => simp [server_worker, h1]
  | some buffer =>
    cases h2 : parseRequestLine buffer with
    | none => simp [server_worker, parseRequest, h1, h2]
    | some line =>
      obtain ⟨type, rawpath, version, rest⟩ := line
      cases h3 : parseHeaderFields rest with
      | none => simp [server_worker, parseRequest, h1, h2, h3]
      | some fields => simp [server_worker, parseRequest, h1, h2, h3]

/-! ## Lemmas on sanitizing a sanitized path -/

theorem reassemble_kept_ordinary (path : List Nat) :
    ∃ kept, reassemble (tokenize path) = [47].intercalate kept ∧
      ∀ t ∈ kept, OrdinarySegment t := by
  obtain ⟨kept, h1, h2, h3⟩ := foldl_reassembleStep_kept (tokenize path).reverse (false, [])
    [] [] rfl (by simp) (List.Sublist.refl _)
  refine ⟨kept, h1, ?_⟩
  rw [List.reverse_reverse, List.append_nil] at h3
  intro t ht
  exact ⟨(h2 t ht).1, tokenize_no_slash path t (h3.subset ht), (h2 t ht).2.1, (h2 t ht).2.2⟩

theorem foldl_reassembleStep_join (l kept0 : List (List Nat))
    (hl : ∀ t ∈ l, OrdinarySegment t) (hk : ∀ t ∈ kept0, t ≠ []) :
    l.foldl reassembleStep (false, [47].intercalate kept0) =
      (false, [47].intercalate (l.reverse ++ kept0)) := by
  induction l generalizing kept0 with
  | nil => rfl
  | cons t l ih =>
    have ht := hl t (List.mem_cons_self _ _)
    have hstep : reassembleStep (false, [47].intercalate kept0) t =
        (false, [47].intercalate (t :: kept0)) := by
      rw [intercalate_cons]
      by_cases hkn : kept0 = []
      · subst hkn
        have e : [47].intercalate ([] : List (List Nat)) = [] := rfl
        simp [reassembleStep, ht.1, ht.2.2.1, ht.2.2.2, e]
      · have h6 : ¬ [47].intercalate kept0 = [] := fun h6 =>
          hkn (intercalate_eq_nil kept0 hk h6)
        simp [reassembleStep, ht.1, ht.2.2.1, ht.2.2.2, hkn, h6]
    rw [List.foldl_cons, hstep, ih (t :: kept0)
      (fun u hu => hl u (List.mem_cons_of_mem _ hu))
      (by
        intro u hu
        rcases List.mem_cons.mp hu with hu | hu
        · rw [hu]; exact ht.1
        · exact hk u hu)]
    simp

theorem reassemble_root_ordinary (kept : List (List Nat))
    (hk : ∀ t ∈ kept, OrdinarySegment t) :
    reassemble ([] :: kept) = [47].intercalate kept := by
  unfold reassemble
  have e : [47].intercalate ([] : List (List Nat)) = [] := rfl
  rw [List.reverse_cons, List.foldl_append]
  have h := foldl_reassembleStep_join kept.reverse []
    (fun t ht => hk t (List.mem_reverse.mp ht)) (by simp)
  rw [e] at h
  rw [h]
  simp [reassembleStep]

theorem tokenize_intercalate_slash (kept : List (List Nat))
    (hk : ∀ t ∈ kept, OrdinarySegment t) (hne : kept ≠ []) :
    tokenize ([47].intercalate kept ++ [47]) = kept := by
  induction kept with
  | nil => exact absurd rfl hne
  | cons t kept ih =>
    have ht := hk t (List.mem_cons_self _ _)
    rw [intercalate_cons]
    by_cases hkn : kept = []
    · subst hkn
      simp only [if_true]
      rw [tokenize_token_slash t [] ht.2.1, tokenize_nil]
    · simp only [hkn, if_false]
      rw [List.append_assoc, List.cons_append, tokenize_token_slash t _ ht.2.1,
        ih (fun u hu => hk u (List.mem_cons_of_mem _ hu)) hkn]

theorem getLast?_intercalate (kept : List (List Nat))
    (hk : ∀ t ∈ kept, OrdinarySegment t) (hne : kept ≠ []) :
    ∃ c, ([47].intercalate kept).getLast? = some c ∧ c ≠ 47 := by
  induction kept with
  | nil => exact absurd rfl hne
  | cons t kept ih =>
    have ht := hk t (List.mem_cons_self _ _)
    rw [intercalate_cons]
    by_cases hkn : kept = []
    · subst hkn
      simp only [if_true]
      obtain ⟨c, hc⟩ := getLast?_of_ne_nil t ht.1
      refine ⟨c, hc, ?_⟩
      intro h47
      rw [h47] at hc
      exact ht.2.1 (List.mem_of_getLast?_eq_some hc)
    · simp only [hkn, if_false]
      obtain ⟨c, hc, hc2⟩ := ih (fun u hu => hk u (List.mem_cons_of_mem _ hu)) hkn
      refine ⟨c, ?_, hc2⟩
      rw [getLast?_append_cons]
      cases hj : [47].intercalate kept with
      | nil => rw [hj] at hc; simp at hc
      | cons a q =>
        rw [List.getLast?_cons_cons, ← hj]
        exact hc

theorem sanitizepath_fixed_plain (kept : List (List Nat))
    (hk : ∀ t ∈ kept, OrdinarySegment t) (hne : kept ≠ []) :
    sanitizepath (47 :: [47].intercalate kept) = some (47 :: [47].intercalate kept) := by
  obtain ⟨c, hc, hc2⟩ := getLast?_intercalate kept hk hne
  have hlast : (47 :: [47].intercalate kept).getLast? = some c := by
    cases hj : [47].intercalate kept with
    | nil => rw [hj] at hc; simp at hc
    | cons a q =>
      rw [List.getLast?_cons_cons, ← hj]
      exact hc
  have htok : tokenize (47 :: [47].intercalate kept) = [] :: kept := by
    have := tokenize_token_slash [] ([47].intercalate kept) (by simp)
    rw [List.nil_append] at this
    rw [this, tokenize_intercalate kept hk]
  rw [sanitizepath_of_getLast _ c hlast, htok, reassemble_root_ordinary kept hk]
  simp [hc2]

theorem sanitizepath_fixed_slash (kept : List (List Nat))
    (hk : ∀ t ∈ kept, OrdinarySegment t) (hne : kept ≠ []) :
    sanitizepath (47 :: ([47].intercalate kept ++ [47])) =
      some (47 :: ([47].intercalate kept ++ [47])) := by
  have hlast : (47 :: ([47].intercalate kept ++ [47])).getLast? = some 47 := by
    rw [← List.cons_append, List.getLast?_append]
    rfl
  have htok : tokenize (47 :: ([47].intercalate kept ++ [47])) = [] :: kept := by
    have := tokenize_token_slash [] ([47].intercalate kept ++ [47]) (by simp)
    rw [List.nil_append] at this
    rw [this, tokenize_intercalate_slash kept hk hne]
  rw [sanitizepath_of_getLast _ 47 hlast, htok, reassemble_root_ordinary kept hk]
  simp

/-! ## The codec: statements -/

/-- C1, on the code: the round trip fails. For the string "/" the encoder
produces "2f" (no '%' in front of the digits), which the decoder leaves
unchanged, so `urldecode (urlencode "/")` is "2f" and not "/". -/
theorem urldecode_urlencode_slash (schar : Bool) :
    urldecode (urlencode schar (bytes "/")) = bytes "2f" ∧
    urldecode (urlencode schar (bytes "/")) ≠ bytes "/" := by
  cases schar <;> decide

/-- C2, on the code: a byte outside the unreserved set is written as its
hexadecimal digits only, without '%': "/" becomes "2f", not "%2f"; and where
`char` is signed, a byte of 128 or more becomes eight digits ("ffffffe9" for
233). -/
theorem urlencode_omits_percent (schar : Bool) :
    urlencode schar (bytes "/") = bytes "2f" ∧
    urlencode schar (bytes "/") ≠ bytes "%2f" ∧
    urlencode true [233] = bytes "ffffffe9" := by
  cases schar <;> decide

/-- C8: when no '%' of `s` is immediately followed by two hexadecimal digits,
`urldecode s` is `s` with every '+' replaced by a space: such a '%' is emitted
as it is and the characters behind it are processed normally. In particular
"%zz" gives "%zz", "%4" gives "%4" and "%+1" gives "% 1". -/
theorem urldecode_malformed_escape (s : List Nat) (h : NoValidEscape s) :
    urldecode s = plusToSpace s ∧
    urldecode (bytes "%zz") = bytes "%zz" ∧
    urldecode (bytes "%4") = bytes "%4" ∧
    urldecode (bytes "%+1") = bytes "% 1" :=
  ⟨urldecode_of_noValidEscape s h, by decide, by decide, by decide⟩

theorem urldecode_malformed_escape_witness :
    NoValidEscape (bytes "a+%z1%%4") ∧
    urldecode (bytes "a+%z1%%4") = bytes "a %z1%%4" :=
  ⟨by decide, (urldecode_malformed_escape (bytes "a+%z1%%4") (by decide)).1⟩

/-- C3: for every non-empty path, `sanitizepath` returns a string none of
whose '/'-separated segments is ".." or ".". -/
theorem sanitizepath_no_dot_segment (path : List Nat) (h : path ≠ []) :
    ∃ out, sanitizepath path = some out ∧
      ∀ seg ∈ segments out, seg ≠ bytes ".." ∧ seg ≠ bytes "." := by
  obtain ⟨last, hlast⟩ := getLast?_of_ne_nil path h
  refine ⟨_, sanitizepath_of_getLast path last hlast, ?_⟩
  have hinv := reassemble_noDot path
  have e1 : bytes ".." = [46, 46] := by decide
  have e2 : bytes "." = [46] := by decide
  rw [e1, e2]
  intro seg hseg
  have hcons : ∀ x : List Nat, segments (47 :: x) = segments [] ++ segments x :=
    fun x => segments_append_slash [] x
  rw [hcons, segments_nil] at hseg
  split_ifs at hseg
  · rw [segments_append_slash, segments_nil] at hseg
    simp only [List.mem_append, List.mem_singleton] at hseg
    rcases hseg with hseg | hseg | hseg
    · subst hseg; simp
    · exact hinv seg hseg
    · subst hseg; simp
  · simp only [List.mem_append, List.mem_singleton] at hseg
    rcases hseg with hseg | hseg
    · subst hseg; simp
    · exact hinv seg hseg

theorem sanitizepath_no_dot_segment_witness :
    bytes "/../a/./../..//etc/passwd" ≠ [] ∧
    ∃ out, sanitizepath (bytes "/../a/./../..//etc/passwd") = some out ∧
      ∀ seg ∈ segments out, seg ≠ bytes ".." ∧ seg ≠ bytes "." :=
  ⟨by decide, sanitizepath_no_dot_segment (bytes "/../a/./../..//etc/passwd") (by decide)⟩

/-- C4, on the code: `sanitizepath "/a/../../c"` is "/a/c", not "/c". The
token ".." that is met while `ignore` is set is itself the token that gets
skipped, so two ".." in a row cancel each other and "a" is kept. -/
theorem sanitizepath_double_dotdot :
    sanitizepath (bytes "/a/../../c") = some (bytes "/a/c") ∧
    sanitizepath (bytes "/a/../../c") ≠ some (bytes "/c") := by
  decide

/-- C10: a ".." cancels the segment in front of it. For every prefix `p`,
ordinary segment `s` and ordinary segments `qs`, the paths `p/s/../q` and `p/q`
(with `q` the segments `qs` joined by '/') have the same sanitized path; and
`sanitizepath "/a/b/../c"` is "/a/c". -/
theorem sanitizepath_dotdot_cancels (p s : List Nat) (qs : List (List Nat))
    (hs : OrdinarySegment s) (hq : ∀ t ∈ qs, OrdinarySegment t) :
    (∃ out,
      sanitizepath (p ++ bytes "/" ++ s ++ bytes "/../" ++ [47].intercalate qs) = some out ∧
      sanitizepath (p ++ bytes "/" ++ [47].intercalate qs) = some out) ∧
    sanitizepath (bytes "/a/b/../c") = some (bytes "/a/c") := by
  refine ⟨?_, by decide⟩
  have e1 : bytes "/" = [47] := by decide
  have e2 : bytes "/../" = [47, 46, 46, 47] := by decide
  rw [e1, e2]
  generalize hqdef : [47].intercalate qs = q
  have hp1 : p ++ [47] ++ s ++ [47, 46, 46, 47] ++ q =
      p ++ 47 :: ((s ++ [47, 46, 46]) ++ 47 :: q) := by simp
  have hp1b : p ++ [47] ++ s ++ [47, 46, 46, 47] ++ q =
      p ++ 47 :: (s ++ 47 :: ([46, 46] ++ 47 :: q)) := by simp
  have hp2 : p ++ [47] ++ q = p ++ 47 :: q := by simp
  obtain ⟨A, hA⟩ := tokenize_append_slash p
  have hq2 : tokenize q = qs := by
    rw [← hqdef]
    exact tokenize_intercalate qs hq
  have ht1 : tokenize (p ++ [47] ++ s ++ [47, 46, 46, 47] ++ q) = A ++ (s :: [46, 46] :: qs) := by
    rw [hp1b, hA, tokenize_token_slash s _ hs.2.1, tokenize_token_slash [46, 46] _ (by decide),
      hq2]
  have ht2 : tokenize (p ++ [47] ++ q) = A ++ qs := by
    rw [hp2, hA, hq2]
  obtain ⟨last, hlast⟩ := getLast?_of_ne_nil (p ++ [47] ++ q) (by simp)
  have hlast1 : (p ++ [47] ++ s ++ [47, 46, 46, 47] ++ q).getLast? = some last := by
    rw [hp1, getLast?_append_slash p (s ++ [47, 46, 46]) p q, ← hp2]
    exact hlast
  refine ⟨_, sanitizepath_of_getLast _ last hlast1, ?_⟩
  rw [sanitizepath_of_getLast _ last hlast, ht1, ht2, reassemble_cancel A qs s hq]

theorem sanitizepath_dotdot_cancels_witness :
    OrdinarySegment (bytes "dir") ∧
    (∀ t ∈ [bytes "a", bytes "b.txt"], OrdinarySegment t) ∧
    ∃ out,
      sanitizepath (bytes "/x/../y/" ++ bytes "/" ++ bytes "dir" ++ bytes "/../" ++
        [47].intercalate [bytes "a", bytes "b.txt"]) = some out ∧
      sanitizepath (bytes "/x/../y/" ++ bytes "/" ++
        [47].intercalate [bytes "a", bytes "b.txt"]) = some out :=
  ⟨by decide, by decide,
   (sanitizepath_dotdot_cancels (bytes "/x/../y/") (bytes "dir") [bytes "a", bytes "b.txt"]
    (by decide) (by decide)).1⟩

/-! ## The connection worker: statements -/

/-- C5, on the code: a header block that is read completely and fails the
parse is answered with a header. With `BUFSIZ` 8192 the block "GET" CR LF CR LF
is read completely and fails the request line parse (it has no space), and
"GET / HTTP/1.1" CR LF "Host" CR LF CR LF is read completely and fails the header
field parse (no ':' behind "Host"). In both runs the handler is not called and
the worker sends 91 bytes, the header of the `Response` constructed at line 310
in front of the parse and destroyed at the `return`, where the claim has zero
bytes. The `return` of the read loop, under the same comment "close
connection", sends nothing: so for "GET" CR LF with the peer closing behind
it. -/
theorem server_worker_malformed_not_silent :
    readHeader 8192 (bytes "GET\r\n\r\n") = some (bytes "GET\r\n\r\n") ∧
    parseRequestLine (bytes "GET\r\n\r\n") = none ∧
    server_worker 8192 (fun _ => [Action.write (bytes "hello")]) (bytes "GET\r\n\r\n") =
      { handled := [],
        sent := bytes ("HTTP/1.1 501 Not Implemented\r\n" ++
          "Content-Type: application/octet-stream\r\nConnection: Close\r\n\r\n") } ∧
    (server_worker 8192 (fun _ => [Action.write (bytes "hello")])
      (bytes "GET\r\n\r\n")).sent.length = 91 ∧
    readHeader 8192 (bytes "GET / HTTP/1.1\r\nHost\r\n\r\n") =
      some (bytes "GET / HTTP/1.1\r\nHost\r\n\r\n") ∧
    parseRequestLine (bytes "GET / HTTP/1.1\r\nHost\r\n\r\n") =
      some (bytes "GET", bytes "/", bytes "HTTP/1.1", bytes "Host\r\n\r\n") ∧
    parseHeaderFields (bytes "Host\r\n\r\n") = none ∧
    server_worker 8192 (fun _ => [Action.write (bytes "hello")])
        (bytes "GET / HTTP/1.1\r\nHost\r\n\r\n") =
      { handled := [],
        sent := bytes ("HTTP/1.1 501 Not Implemented\r\n" ++
          "Content-Type: application/octet-stream\r\nConnection: Close\r\n\r\n") } ∧
    server_worker 8192 (fun _ => [Action.write (bytes "hello")]) (bytes "GET\r\n") =
      { handled := [], sent := [] } := by
  decide

/-- C6: when the block "m t v" CR LF, "k: v" CR LF for each header pair, CR LF
(with `m`, `t` free of space, CR and LF, `v` free of CR and LF, keys free of
':', CR and LF, values free of CR and LF and not starting with space or tab)
has been read completely into the buffer, the worker parses it and calls the
handler with a request whose type is `m`, version is `v`, path is the decoded
part of `t` in front of its first '?', and whose field map sends every key to
the value of its last occurrence. -/
theorem server_worker_parses_block (BUFSIZ : Nat) (handler : Handler) (incoming : List Nat)
    (m t v : List Nat) (hdrs : List (List Nat × List Nat))
    (hm : ∀ c ∈ m, c ≠ 32 ∧ c ≠ 13 ∧ c ≠ 10)
    (ht : ∀ c ∈ t, c ≠ 32 ∧ c ≠ 13 ∧ c ≠ 10)
    (hv : ∀ c ∈ v, c ≠ 13 ∧ c ≠ 10)
    (hkey : ∀ kv ∈ hdrs, ∀ c ∈ kv.1, c ≠ 58 ∧ c ≠ 13 ∧ c ≠ 10)
    (hval : ∀ kv ∈ hdrs, (∀ c ∈ kv.2, c ≠ 13 ∧ c ≠ 10) ∧
      kv.2.head? ≠ some 32 ∧ kv.2.head? ≠ some 9)
    (hread : readHeader BUFSIZ incoming = some (requestBlock m t v hdrs)) :
    ∃ req, parseRequest (requestBlock m t v hdrs) = some req ∧
      (server_worker BUFSIZ handler incoming).handled = [req] ∧
      req.type = m ∧ req.version = v ∧
      req.path = urldecode (t.takeWhile (fun c => c ≠ 63)) ∧
      ∀ key, mapFind req.fields key = lastValue hdrs key := by
  have hline : parseRequestLine (requestBlock m t v hdrs) =
      some (m, t, v, headerLines hdrs ++ [13, 10]) := by
    unfold requestBlock
    rw [List.append_assoc _ (headerLines hdrs)]
    exact parseRequestLine_block m t v _ (fun c hc => (hm c hc).1) (fun c hc => (ht c hc).1)
      (fun c hc => (hv c hc).1)
  have hfields := parseHeaderFields_lines hdrs (fun kv h c hc => (hkey kv h c hc).1)
    (fun kv h => ⟨fun c hc => ((hval kv h).1 c hc).1, (hval kv h).2⟩)
  refine ⟨{ type := m, version := v, path := (parseQuery t).1,
            fields := hdrs.foldl (fun f kv => mapSet f kv.1 kv.2) [],
            parameters := (parseQuery t).2 }, ?_, ?_, rfl, rfl, rfl, ?_⟩
  · unfold parseRequest
    rw [hline]
    simp only [hfields]
  · unfold server_worker
    rw [hread]
    simp only [hline, hfields]
  · intro key
    rw [mapFind_foldl_mapSet]
    cases lastValue hdrs key <;> rfl

theorem server_worker_parses_block_witness :
    readHeader 8192 (bytes "GET /a%20b?x=1 HTTP/1.1\r\nHost: h\r\nA: \r\nHost: z z\r\n\r\nBODY") =
      some (requestBlock (bytes "GET") (bytes "/a%20b?x=1") (bytes "HTTP/1.1")
        [(bytes "Host", bytes "h"), (bytes "A", []), (bytes "Host", bytes "z z")]) ∧
    ∃ req, parseRequest (requestBlock (bytes "GET") (bytes "/a%20b?x=1") (bytes "HTTP/1.1")
        [(bytes "Host", bytes "h"), (bytes "A", []), (bytes "Host", bytes "z z")]) = some req ∧
      (server_worker 8192 (fun _ => [])
        (bytes "GET /a%20b?x=1 HTTP/1.1\r\nHost: h\r\nA: \r\nHost: z z\r\n\r\nBODY")).handled = [req] ∧
      req.type = bytes "GET" ∧ req.version = bytes "HTTP/1.1" ∧
      req.path = urldecode ((bytes "/a%20b?x=1").takeWhile (fun c => c ≠ 63)) ∧
      ∀ key, mapFind req.fields key =
        lastValue [(bytes "Host", bytes "h"), (bytes "A", []), (bytes "Host", bytes "z z")] key :=
  ⟨by decide,
   server_worker_parses_block 8192 (fun _ => [])
    (bytes "GET /a%20b?x=1 HTTP/1.1\r\nHost: h\r\nA: \r\nHost: z z\r\n\r\nBODY")
    (bytes "GET") (bytes "/a%20b?x=1") (bytes "HTTP/1.1")
    [(bytes "Host", bytes "h"), (bytes "A", []), (bytes "Host", bytes "z z")]
    (by decide) (by decide) (by decide) (by decide) (by decide) (by decide)⟩

/-- C7, on the code: a malformed request is handed to the handler. With
`BUFSIZ` 8192 the block "GET" CR LF "Host: a b" CR LF CR LF is read completely.
Its request line "GET" has no space, so the request is one that the
description abandons; the scan of the request type (lines 313-316) stops only
at a space and runs over the CR LF, the type becomes "GET" CR LF "Host:", the
path "a", the version "b", and the handler is called once with this request. -/
theorem server_worker_malformed_handled :
    readHeader 8192 (bytes "GET\r\nHost: a b\r\n\r\n") =
      some (bytes "GET\r\nHost: a b\r\n\r\n") ∧
    crlfLines (bytes "GET\r\nHost: a b\r\n\r\n") = [bytes "GET", bytes "Host: a b", [], []] ∧
    MalformedAsSpecified (bytes "GET\r\nHost: a b\r\n\r\n") ∧
    (server_worker 8192 (fun _ => []) (bytes "GET\r\nHost: a b\r\n\r\n")).handled =
      [{ type := bytes "GET\r\nHost:", version := bytes "b", path := bytes "a",
         fields := [], parameters := [] }] ∧
    (server_worker 8192 (fun _ => []) (bytes "GET\r\nHost: a b\r\n\r\n")).handled.length = 1 := by
  decide

/-! ## htmlspecialchars: statement -/

/-- C12: `htmlspecialchars s` is the concatenation, over the bytes of `s`, of
"&amp;" for '&', "&lt;" for '<', "&gt;" for '>' and the byte itself otherwise;
the two quote characters pass unchanged, and "<a&b>" gives
"&lt;a&amp;b&gt;". -/
theorem htmlspecialchars_concat (s : List Nat) :
    htmlspecialchars s = (s.map htmlEntity).flatten ∧
    htmlspecialchars [34, 39] = [34, 39] ∧
    htmlspecialchars (bytes "<a&b>") = bytes "&lt;a&amp;b&gt;" := by
  refine ⟨?_, by decide, by decide⟩
  induction s with
  | nil => rfl
  | cons c s ih =>
    rw [htmlspecialchars, ih, List.map_cons, List.flatten_cons]
    rfl

/-! ## The response: statements -/

/-- C17: on a response that has not sent its header and holds no byte, any
sequence of writes followed by the destruction delivers the header block
once, in front, and behind it the written bytes in order: every header byte
precedes every body byte. -/
theorem response_header_once (BUFSIZ : Nat) (r : Response) (ws : List (List Nat))
    (h1 : r.headerSent = false) (h2 : r.sent = []) (h3 : r.sendBuffer = []) :
    (Response.destroy BUFSIZ (ws.foldl (Response.write BUFSIZ) r)).sent =
      headerText r ++ ws.flatten := by
  have hs : r.stream = [] := by simp [Response.stream, h2, h3]
  rw [destroy_sent]
  cases ws with
  | nil =>
    simp only [List.foldl_nil, h1, Bool.false_eq_true, if_false]
    rw [sendHeader_stream, hs]
    simp
  | cons w ws =>
    rw [List.foldl_cons]
    obtain ⟨e1, e2⟩ := foldl_write_stream BUFSIZ ws (Response.write BUFSIZ r w)
      (Response_write_headerSent BUFSIZ r w)
    rw [e2]
    simp only [if_true]
    rw [e1, Response_write_stream, hs]
    simp [h1]

theorem response_header_once_witness :
    (Response.destroy 16 ([bytes "ab", [], bytes "0123456789abcdefghij", bytes "c"].foldl
      (Response.write 16) Response.create)).sent =
      headerText Response.create ++ bytes "ab0123456789abcdefghijc" :=
  response_header_once 16 Response.create
    [bytes "ab", [], bytes "0123456789abcdefghij", bytes "c"] rfl rfl rfl

/-- C19: a response without fields that is destroyed without any write sends
the status line, the Content-Type line, the Connection: Close line and a blank
line, and nothing else (the status code is written in decimal when it is below
2^31); for a freshly constructed response these are the 91 bytes of the
default header. -/
theorem response_finalized_without_write (BUFSIZ : Nat) (r : Response)
    (h1 : r.headerSent = false) (h2 : r.fields = []) (h3 : r.sent = [])
    (h4 : r.sendBuffer = []) :
    (Response.destroy BUFSIZ r).sent =
      r.version ++ bytes " " ++ intText (unsignedToInt r.statusCode) ++ bytes " " ++
        r.statusMessage ++ bytes "\r\n" ++
      (bytes "Content-Type: " ++ r.contentType ++ bytes "\r\n") ++
      bytes "Connection: Close\r\n" ++ bytes "\r\n" ∧
    (r.statusCode < 2 ^ 31 → intText (unsignedToInt r.statusCode) = natText r.statusCode) ∧
    (Response.destroy BUFSIZ Response.create).sent =
      bytes ("HTTP/1.1 501 Not Implemented\r\n" ++
        "Content-Type: application/octet-stream\r\nConnection: Close\r\n\r\n") := by
  refine ⟨?_, ?_, destroy_create_sent BUFSIZ⟩
  · have hs : r.stream = [] := by simp [Response.stream, h3, h4]
    rw [destroy_sent]
    simp only [h1, Bool.false_eq_true, if_false]
    rw [sendHeader_stream, hs]
    simp [headerText, h2, fieldLines]
  · intro hlt
    have e : r.statusCode % 2 ^ 32 = r.statusCode := Nat.mod_eq_of_lt (by omega)
    have hlt2 : r.statusCode < 2147483648 := by simpa using hlt
    unfold unsignedToInt intText
    rw [e]
    simp only [show (2 : Nat) ^ 31 = 2147483648 by norm_num, hlt2, if_true]
    have hn : ¬ ((r.statusCode : Int) < 0) := by omega
    simp only [hn, if_false, Int.toNat_ofNat]

theorem response_finalized_without_write_witness :
    (Response.destroy 8192
      { Response.create with statusCode := 404, statusMessage := bytes "Not Found" }).sent =
      bytes ("HTTP/1.1 404 Not Found\r\n" ++
        "Content-Type: application/octet-stream\r\nConnection: Close\r\n\r\n") :=
  (response_finalized_without_write 8192
    { Response.create with statusCode := 404, statusMessage := bytes "Not Found" }
    rfl rfl rfl rfl).1

/-! ## The connection worker: the read loop and the scans of the parser -/

/-- C16: when the first `BUFSIZ` bytes of the incoming stream contain no
CR LF CR LF, the worker returns from the read loop: it sends nothing and does
not call the handler. -/
theorem server_worker_no_terminator (BUFSIZ : Nat) (handler : Handler) (incoming : List Nat)
    (h : ¬ [13, 10, 13, 10] <:+: incoming.take BUFSIZ) :
    server_worker BUFSIZ handler incoming = { handled := [], sent := [] } := by
  cases hr : readHeader BUFSIZ incoming with
  | none => simp only [server_worker, hr]
  | some result =>
    obtain ⟨hp, _, hs⟩ := readHeader_some BUFSIZ incoming result hr
    exact absurd (hs.isInfix.trans hp.isInfix) h

theorem server_worker_no_terminator_witness :
    (¬ [13, 10, 13, 10] <:+: (bytes "GET /a HTTP/1.1\r\nHost: h\r\n\r\n").take 16) ∧
    server_worker 16 (fun _ => [Action.write (bytes "hello")])
      (bytes "GET /a HTTP/1.1\r\nHost: h\r\n\r\n") = { handled := [], sent := [] } :=
  ⟨by decide,
   server_worker_no_terminator 16 (fun _ => [Action.write (bytes "hello")])
    (bytes "GET /a HTTP/1.1\r\nHost: h\r\n\r\n") (by decide)⟩

/-- C14, on the code: a header line without ':' in front of a line with one
is not rejected. In "GET / HTTP/1.1", "Host", "A: b" the scan for ':' runs
over the CR LF behind "Host", the key becomes "Host" CR LF "A", and the handler
is called. -/
theorem server_worker_line_without_colon :
    readHeader 8192 (bytes "GET / HTTP/1.1\r\nHost\r\nA: b\r\n\r\n") =
      some (bytes "GET / HTTP/1.1\r\nHost\r\nA: b\r\n\r\n") ∧
    (server_worker 8192 (fun _ => []) (bytes "GET / HTTP/1.1\r\nHost\r\nA: b\r\n\r\n")).handled =
      [{ type := bytes "GET", version := bytes "HTTP/1.1", path := bytes "/",
         fields := [(bytes "Host\r\nA", bytes "b")], parameters := [] }] := by
  decide

/-- C15, on the code: a request line with fewer than two spaces is not
rejected when a later line has a space. In "GET /index.html", "User-Agent: a b"
the request line has one space; the scan of the path runs over the CR LF, the
path becomes "/index.html" CR LF "User-Agent:", the version "a b", and the
handler is called. -/
theorem server_worker_request_line_one_space :
    readHeader 8192 (bytes "GET /index.html\r\nUser-Agent: a b\r\n\r\n") =
      some (bytes "GET /index.html\r\nUser-Agent: a b\r\n\r\n") ∧
    (server_worker 8192 (fun _ => [])
      (bytes "GET /index.html\r\nUser-Agent: a b\r\n\r\n")).handled =
      [{ type := bytes "GET", version := bytes "a b",
         path := bytes "/index.html\r\nUser-Agent:", fields := [], parameters := [] }] := by
  decide

/-! ## The header block: statements -/

/-- C18 as stated fails: the header of a fresh response has the Content-Type
line in front of the Connection: Close line, not behind it. -/
theorem sendHeader_order_differs :
    (Response.destroy 8192 Response.create).sent = headerText Response.create ∧
    headerText Response.create ≠ headerTextAsClaimed Response.create := by
  decide

/-- C18, amended: the header block that `sendHeader` emits is, in this order,
the status line, the Content-Type line, the Connection: Close line, one line
"key: value" per field in the order of the map, and a blank line; the keys of
a map filled by assignments are in strictly ascending order (after b = 2,
a = 1, b = 3 the lines are "a: 1" and "b: 3"). -/
theorem sendHeader_emits (BUFSIZ : Nat) (r : Response) (sets : List (List Nat × List Nat)) :
    (Implementation.sendHeader BUFSIZ { r with fields := fieldsAfter sets }).stream =
      r.stream ++
        (r.version ++ bytes " " ++ intText (unsignedToInt r.statusCode) ++ bytes " " ++
          r.statusMessage ++ bytes "\r\n" ++
        (bytes "Content-Type: " ++ r.contentType ++ bytes "\r\n") ++
        bytes "Connection: Close\r\n" ++
        fieldLines (fieldsAfter sets) ++ bytes "\r\n") ∧
    (fieldsAfter sets).Pairwise (fun a b => strLess a.1 b.1 = true) ∧
    fieldLines (fieldsAfter [(bytes "b", bytes "2"), (bytes "a", bytes "1"),
      (bytes "b", bytes "3")]) = bytes "a: 1\r\nb: 3\r\n" := by
  refine ⟨?_, fieldsAfter_sorted sets, by decide⟩
  rw [sendHeader_stream]
  simp [headerText, Response.stream]

/-! ## sanitizepath: the shape of the result -/

/-- C11: for every non-empty path the sanitized path begins with '/', ends
with '/' when the path does, and is made of '/' followed by segments of the
path, in their order, joined by '/', none of them empty or "." (and of a final
'/' when the path ends with one); `sanitizepath "/a/./b/"` is "/a/b/". -/
theorem sanitizepath_shape (path : List Nat) (h : path ≠ []) :
    (∃ out, sanitizepath path = some out ∧
      out.head? = some 47 ∧
      (path.getLast? = some 47 → out.getLast? = some 47) ∧
      ∃ kept : List (List Nat), kept.Sublist (segments path) ∧
        (∀ t ∈ kept, t ≠ [] ∧ t ≠ bytes ".") ∧
        out = [47] ++ [47].intercalate kept ++
          (if path.getLast? = some 47 then [47] else [])) ∧
    sanitizepath (bytes "/a/./b/") = some (bytes "/a/b/") := by
  refine ⟨?_, by decide⟩
  obtain ⟨last, hlast⟩ := getLast?_of_ne_nil path h
  obtain ⟨kept, hk1, hk2, hk3⟩ := reassemble_kept path
  refine ⟨_, sanitizepath_of_getLast path last hlast, rfl, ?_, kept, hk3, ?_, ?_⟩
  · intro h47
    have e : last = 47 := by
      rw [hlast] at h47
      exact Option.some.inj h47
    subst e
    simp only [if_true]
    rw [← List.cons_append, List.getLast?_append]
    rfl
  · intro t ht
    exact ⟨(hk2 t ht).1, (hk2 t ht).2.1⟩
  · rw [hlast, hk1]
    by_cases e : last = 47
    · simp [e]
    · simp [e]

theorem sanitizepath_shape_witness :
    bytes "a//./b/../c/" ≠ [] ∧
    sanitizepath (bytes "a//./b/../c/") = some (bytes "/a/c/") ∧
    ∃ out, sanitizepath (bytes "a//./b/../c/") = some out ∧
      out.head? = some 47 ∧
      ((bytes "a//./b/../c/").getLast? = some 47 → out.getLast? = some 47) ∧
      ∃ kept : List (List Nat), kept.Sublist (segments (bytes "a//./b/../c/")) ∧
        (∀ t ∈ kept, t ≠ [] ∧ t ≠ bytes ".") ∧
        out = [47] ++ [47].intercalate kept ++
          (if (bytes "a//./b/../c/").getLast? = some 47 then [47] else []) :=
  ⟨by decide, by decide, (sanitizepath_shape (bytes "a//./b/../c/") (by decide)).1⟩

/-! ## The query parameters: statements -/

/-- C13 as stated fails: for the target "/x?a&" the text behind '?' splits on
'&' into "a" and an empty piece, which would give two parameters; the query
loop stops when the text is used up and stores one, a with the empty value. -/
theorem parseQuery_trailing_ampersand :
    ((queryText (bytes "/x?a&")).splitOn 38).map queryPair =
      [(bytes "a", []), ([], [])] ∧
    (parseQuery (bytes "/x?a&")).2 = [(bytes "a", [])] := by
  decide

/-- C13, amended: the parameters of a request target are the pairs
(urldecode key, urldecode value) of the pieces of the text behind the first
'?' between its '&' characters, each cut at its first '=' (value empty without
'='), where an empty last piece (empty text, or text ending in '&') gives no
entry: they are the same pairs with the same multiplicities, the entries of
each key are in query order, and the keys are in ascending order. The stored
path is the decoded text in front of the '?'. For "/x?a=1&a=2&b" the
parameters are a -> "1", a -> "2", b -> "" and the path is "/x". -/
theorem parseQuery_parameters (target : List Nat) :
    (parseQuery target).1 = urldecode (target.takeWhile (fun c => c ≠ 63)) ∧
    (∀ key, (parseQuery target).2.filter (fun e => e.1 = key) =
      ((queryPieces (queryText target)).map queryPair).filter (fun e => e.1 = key)) ∧
    (parseQuery target).2.Perm ((queryPieces (queryText target)).map queryPair) ∧
    (parseQuery target).2.Pairwise (fun a b => strLess b.1 a.1 = false) ∧
    parseQuery (bytes "/x?a=1&a=2&b") =
      (bytes "/x", [(bytes "a", bytes "1"), (bytes "a", bytes "2"), (bytes "b", [])]) := by
  obtain ⟨h1, h2, h3⟩ := foldl_multimapInsert
    ((queryPieces (queryText target)).map queryPair) [] List.Pairwise.nil
  rw [← parseQuery_parameters_eq] at h1 h2 h3
  refine ⟨rfl, ?_, ?_, h3, by decide⟩
  · intro key
    rw [h1 key]
    rfl
  · simpa using h2

/-! ## The buffering of the response: statements -/

/-- C21: `Implementation::write` on a buffer of b bytes and data of n bytes
does exactly one of four things: with b = 0 and n >= BUFSIZ it sends the data
and leaves the buffer empty; with b = 0 and n < BUFSIZ it appends the data and
sends nothing; with b > 0 and b + n < BUFSIZ it appends the data and sends
nothing; otherwise it sends the buffered bytes, empties the buffer and treats
the data by the two cases of the empty buffer. The recursive call does not
recurse again: any depth of two or more gives the same result. -/
theorem Implementation_write_policy (BUFSIZ : Nat) (r : Response) (data : List Nat) :
    Implementation.write BUFSIZ r data =
      (if r.sendBuffer = [] then
        if data.length ≥ BUFSIZ then { r with sent := r.sent ++ data }
        else { r with sendBuffer := r.sendBuffer ++ data }
      else if r.sendBuffer.length + data.length < BUFSIZ then
        { r with sendBuffer := r.sendBuffer ++ data }
      else if data.length ≥ BUFSIZ then
        { r with sent := r.sent ++ r.sendBuffer ++ data, sendBuffer := [] }
      else
        { r with sent := r.sent ++ r.sendBuffer, sendBuffer := data }) ∧
    ∀ k, Implementation.writeLoop BUFSIZ (k + 2) r data = Implementation.write BUFSIZ r data := by
  refine ⟨?_, fun k => writeLoop_fuel BUFSIZ (k + 2) r data (by omega)⟩
  unfold Implementation.write Implementation.writeLoop
  by_cases h1 : r.sendBuffer = []
  · by_cases h2 : data.length ≥ BUFSIZ
    · simp [h1, h2, Implementation.writeBuffer]
    · simp [h1, h2]
  · by_cases h3 : r.sendBuffer.length + data.length < BUFSIZ
    · simp [h1, h3]
    · by_cases h2 : data.length ≥ BUFSIZ
      · simp [h1, h3, h2, Implementation.writeLoop, Implementation.writeBuffer]
      · simp [h1, h3, h2, Implementation.writeLoop, Implementation.writeBuffer]

/-- C22: with every send accepted, any sequence of writes on a response on
which nothing has been written, followed by the destruction, delivers exactly
the header block followed by the written data in order, as many bytes as the
header and the writes have together; what has been sent at any moment is an
initial part of that stream; and the destruction sends whatever the buffer
still holds, so nothing stays behind in it. -/
theorem response_delivers_writes (BUFSIZ : Nat) (r : Response) (ws : List (List Nat))
    (h1 : r.headerSent = false) (h2 : r.sent = []) (h3 : r.sendBuffer = []) :
    (Response.destroy BUFSIZ (ws.foldl (Response.write BUFSIZ) r)).sent =
      headerText r ++ ws.flatten ∧
    (Response.destroy BUFSIZ (ws.foldl (Response.write BUFSIZ) r)).sent.length =
      (headerText r).length + (ws.map List.length).sum ∧
    (∀ n, ((ws.take n).foldl (Response.write BUFSIZ) r).sent <+: headerText r ++ ws.flatten) ∧
    (ws ≠ [] →
      (Response.destroy BUFSIZ (ws.foldl (Response.write BUFSIZ) r)).sent =
        (ws.foldl (Response.write BUFSIZ) r).sent ++
          (ws.foldl (Response.write BUFSIZ) r).sendBuffer) := by
  have hs : r.stream = [] := by simp [Response.stream, h2, h3]
  have hfin : (Response.destroy BUFSIZ (ws.foldl (Response.write BUFSIZ) r)).sent =
      headerText r ++ ws.flatten := by
    rw [destroy_sent]
    cases ws with
    | nil =>
      simp only [List.foldl_nil, h1, Bool.false_eq_true, if_false]
      rw [sendHeader_stream, hs]
      simp
    | cons w ws =>
      rw [List.foldl_cons]
      obtain ⟨e1, e2⟩ := foldl_write_stream BUFSIZ ws (Response.write BUFSIZ r w)
        (Response_write_headerSent BUFSIZ r w)
      rw [e2]
      simp only [if_true]
      rw [e1, Response_write_stream, hs]
      simp [h1]
  refine ⟨hfin, ?_, ?_, ?_⟩
  · rw [hfin, List.length_append, List.length_flatten]
  · intro n
    refine (sent_prefix_stream _).trans ?_
    rw [foldl_write_stream_fresh BUFSIZ _ r h1 hs]
    split_ifs
    · exact List.nil_prefix
    · exact (List.prefix_append_right_inj _).mpr (flatten_take_initial ws n)
  · intro hne
    rw [destroy_sent]
    cases ws with
    | nil => exact absurd rfl hne
    | cons w ws =>
      rw [List.foldl_cons]
      obtain ⟨_, e2⟩ := foldl_write_stream BUFSIZ ws (Response.write BUFSIZ r w)
        (Response_write_headerSent BUFSIZ r w)
      rw [e2]
      rfl

theorem response_delivers_writes_witness :
    (Response.destroy 256 ([bytes "<html>", List.replicate 300 120, bytes "</html>"].foldl
      (Response.write 256) Response.create)).sent =
      headerText Response.create ++
        [bytes "<html>", List.replicate 300 120, bytes "</html>"].flatten :=
  (response_delivers_writes 256 Response.create
    [bytes "<html>", List.replicate 300 120, bytes "</html>"] rfl rfl rfl).1

/-- C23: the send buffer holds fewer than `BUFSIZ` bytes after the
construction, after every write of any length on a response whose buffer
does, and so after any sequence of handler actions on a fresh response. -/
theorem sendBuffer_below_BUFSIZ (BUFSIZ : Nat) (h : 0 < BUFSIZ) (acts : List Action)
    (r : Response) (data : List Nat) :
    Response.create.sendBuffer.length < BUFSIZ ∧
    (acts.foldl (Action.run BUFSIZ) Response.create).sendBuffer.length < BUFSIZ ∧
    (r.sendBuffer.length < BUFSIZ →
      (Implementation.write BUFSIZ r data).sendBuffer.length < BUFSIZ ∧
      (Response.write BUFSIZ r data).sendBuffer.length < BUFSIZ) :=
  ⟨h, foldl_run_buffer_lt BUFSIZ acts Response.create h,
   fun hr => ⟨write_buffer_lt BUFSIZ r data hr, Response_write_buffer_lt BUFSIZ r data hr⟩⟩

theorem sendBuffer_below_BUFSIZ_witness :
    (0 < 64) ∧
    ([Action.write (bytes "ab"), Action.write (List.replicate 1000 120),
      Action.write (bytes "c")].foldl (Action.run 64) Response.create).sendBuffer.length < 64 :=
  ⟨by decide,
   (sendBuffer_below_BUFSIZ 64 (by decide)
    [Action.write (bytes "ab"), Action.write (List.replicate 1000 120),
      Action.write (bytes "c")] Response.create []).2.1⟩

/-! ## The size limit of the header read loop: statements -/

/-- C24 as stated fails: with `BUFSIZ` 8192, the request "GET /aaa...a
HTTP/1.1" CR LF CR LF of exactly 8192 bytes (8174 times 'a') ends with the
terminator and has it nowhere else, and the read loop returns at its size
test: nothing reaches the parser, nothing is sent. -/
theorem readHeader_block_of_BUFSIZ_bytes :
    (bytes "GET /" ++ List.replicate 8174 97 ++ bytes " HTTP/1.1\r\n\r\n").length = 8192 ∧
    readHeader 8192 (bytes "GET /" ++ List.replicate 8174 97 ++ bytes " HTTP/1.1\r\n\r\n") =
      none ∧
    server_worker 8192 (fun _ => [])
      (bytes "GET /" ++ List.replicate 8174 97 ++ bytes " HTTP/1.1\r\n\r\n") =
      { handled := [], sent := [] } := by
  have h := readHeader_too_long 8192
    (bytes "GET /" ++ List.replicate 8174 97 ++ bytes " HTTP/1.1\r\n\r\n") []
    readHeader_8192_block.2 (by rw [readHeader_8192_block.1])
  rw [List.append_nil] at h
  exact ⟨readHeader_8192_block.1, h, server_worker_of_readHeader_none _ _ _ h⟩

/-- C24, amended: a header block that ends with CR LF CR LF, has no CR LF
CR LF before its end and is shorter than `BUFSIZ` bytes (at most `BUFSIZ` - 1)
is read completely, whatever follows it, and is what the parser works on; a
block of `BUFSIZ` bytes or more is abandoned by the size test of the loop, and
nothing is sent. -/
theorem readHeader_size_limit (BUFSIZ : Nat) (handler : Handler) (block more : List Nat)
    (hend : [13, 10, 13, 10] <:+ block)
    (hfirst : ¬ [13, 10, 13, 10] <:+: block.dropLast) :
    (block.length < BUFSIZ →
      readHeader BUFSIZ (block ++ more) = some block ∧
      (server_worker BUFSIZ handler (block ++ more)).handled = (parseRequest block).toList) ∧
    (BUFSIZ ≤ block.length →
      readHeader BUFSIZ (block ++ more) = none ∧
      server_worker BUFSIZ handler (block ++ more) = { handled := [], sent := [] }) := by
  constructor
  · intro hlen
    have h := readHeader_block BUFSIZ block more hend hfirst hlen
    exact ⟨h, server_worker_handled BUFSIZ handler _ _ h⟩
  · intro hlen
    have h := readHeader_too_long BUFSIZ block more hfirst hlen
    exact ⟨h, server_worker_of_readHeader_none _ _ _ h⟩

theorem readHeader_size_limit_witness :
    [13, 10, 13, 10] <:+ bytes "GET / HTTP/1.1\r\nHost: h\r\n\r\n" ∧
    (¬ [13, 10, 13, 10] <:+: (bytes "GET / HTTP/1.1\r\nHost: h\r\n\r\n").dropLast) ∧
    (bytes "GET / HTTP/1.1\r\nHost: h\r\n\r\n").length = 27 ∧
    readHeader 28 (bytes "GET / HTTP/1.1\r\nHost: h\r\n\r\n" ++ bytes "body") =
      some (bytes "GET / HTTP/1.1\r\nHost: h\r\n\r\n") ∧
    readHeader 27 (bytes "GET / HTTP/1.1\r\nHost: h\r\n\r\n" ++ bytes "body") = none :=
  ⟨by decide, by decide, by decide,
   ((readHeader_size_limit 28 (fun _ => []) (bytes "GET / HTTP/1.1\r\nHost: h\r\n\r\n")
      (bytes "body") (by decide) (by decide)).1 (by decide)).1,
   ((readHeader_size_limit 27 (fun _ => []) (bytes "GET / HTTP/1.1\r\nHost: h\r\n\r\n")
      (bytes "body") (by decide) (by decide)).2 (by decide)).1⟩

/-! ## sanitizepath: the empty path and the second application -/

/-- C25, on the code: for the empty path the trailing-slash check reads
`path[path.size() - 1]` with `size()` 0, an index outside the string, and the
function has no defined result; the request lines "GET  HTTP/1.1" and
"GET ?x HTTP/1.1" parse to a request with the empty path. -/
theorem sanitizepath_empty_path :
    sanitizepath [] = none ∧
    (parseRequest (bytes "GET  HTTP/1.1\r\n\r\n")).map Request.path = some [] ∧
    (parseRequest (bytes "GET ?x HTTP/1.1\r\n\r\n")).map Request.path = some [] := by
  decide

/-- C26 as stated fails: `sanitizepath "."` is "/", and `sanitizepath "/"`
is "//" (nothing is kept, and the trailing '/' of "/" is appended). -/
theorem sanitizepath_not_idempotent :
    sanitizepath (bytes ".") = some (bytes "/") ∧
    sanitizepath (bytes "/") = some (bytes "//") ∧
    bytes "//" ≠ bytes "/" := by
  decide

/-- C26, amended: for every non-empty path whose sanitized path is not the
bare "/", sanitizing the sanitized path gives it back; when it is "/", the
second application gives "//", and "//" is given back. -/
theorem sanitizepath_twice (p : List Nat) (h : p ≠ []) :
    ∃ out, sanitizepath p = some out ∧
      (out ≠ bytes "/" → sanitizepath out = some out) ∧
      (out = bytes "/" → sanitizepath out = some (bytes "//")) ∧
      sanitizepath (bytes "//") = some (bytes "//") := by
  obtain ⟨last, hlast⟩ := getLast?_of_ne_nil p h
  obtain ⟨kept, hk1, hk2⟩ := reassemble_kept_ordinary p
  have e1 : bytes "/" = [47] := by decide
  have e2 : bytes "//" = [47, 47] := by decide
  have root : sanitizepath [47] = some [47, 47] := by decide
  have root2 : sanitizepath [47, 47] = some [47, 47] := by decide
  have enil : [47].intercalate ([] : List (List Nat)) = [] := rfl
  rw [e1, e2]
  refine ⟨_, sanitizepath_of_getLast p last hlast, ?_, ?_, root2⟩
  · intro hne
    rw [hk1] at hne ⊢
    by_cases hkn : kept = []
    · subst hkn
      rw [enil] at hne ⊢
      by_cases hl : last = 47
      · simp only [hl, if_true, List.nil_append]
        exact root2
      · simp only [hl, if_false] at hne
        exact absurd rfl hne
    · by_cases hl : last = 47
      · simp only [hl, if_true]
        exact sanitizepath_fixed_slash kept hk2 hkn
      · simp only [hl, if_false]
        exact sanitizepath_fixed_plain kept hk2 hkn
  · intro heq
    rw [heq]
    exact root

theorem sanitizepath_twice_witness :
    bytes "x/../a//./b/" ≠ [] ∧
    sanitizepath (bytes "x/../a//./b/") = some (bytes "/a/b/") ∧
    sanitizepath (bytes "/a/b/") = some (bytes "/a/b/") ∧
    ∃ out, sanitizepath (bytes "x/../a//./b/") = some out ∧
      (out ≠ bytes "/" → sanitizepath out = some out) ∧
      (out = bytes "/" → sanitizepath out = some (bytes "//")) ∧
      sanitizepath (bytes "//") = some (bytes "//") :=
  ⟨by decide, by decide, by decide, sanitizepath_twice (bytes "x/../a//./b/") (by decide)⟩

end mhttpd
